import Mathlib

/-!
# Ghost Path — verification of the link-rewrite and prefix-concealment engines

Shallow embedding of `src/main.ts` (Obsidian "Ghost Path" plugin).

Document text is modelled as `List Char` (JS strings are sequences of UTF-16
code units; all offsets in the source are code-unit indices, modelled as `Nat`
indices into the list).

Both engines scan text with the JS regex `/\[\[([^\]]+?)\]\]/g` executed in an
`exec` loop.  Its matching semantics: at the leftmost candidate position the
engine matches `[[`, then a non-empty run of characters none of which is `]`
(the class `[^\]]` cannot match `]`, so the lazy `+?` extends exactly up to the
first `]`), which must be immediately followed by `]]`; on failure the start
position advances by one, and after a match scanning resumes at the match end
(`lastIndex`).  `grabTail`/`grabInner`/`tokenizeF` below implement exactly
this.
-/

set_option maxRecDepth 10000

namespace GhostPath

/-- `grabTail l` returns `some (inn, rest)` iff `l = inn ++ ']' :: ']' :: rest`
where `inn` contains no `']'` — i.e. the (possibly empty) run of non-`]`
characters is terminated by the two-character delimiter `]]`.  This is the
continuation of a regex match after `\[\[` has been consumed, except that the
regex additionally requires `inn` to be non-empty (`+?`); see `grabInner`. -/
def grabTail : List Char → Option (List Char × List Char)
  | [] => none
  | c :: cs =>
    if c = ']' then
      match cs with
      | c2 :: rest => if c2 = ']' then some ([], rest) else none
      | [] => none
    else
      match grabTail cs with
      | some (inn, rest) => some (c :: inn, rest)
      | none => none

theorem grabTail_nil : grabTail [] = none := rfl

theorem grabTail_rb_nil : grabTail [']'] = none := rfl

theorem grabTail_rb_cons (c2 : Char) (rest : List Char) :
    grabTail (']' :: c2 :: rest) = if c2 = ']' then some ([], rest) else none := rfl

theorem grabTail_cons_ne {c : Char} (cs : List Char) (hc : c ≠ ']') :
    grabTail (c :: cs) =
      (match grabTail cs with
       | some (inn, rest) => some (c :: inn, rest)
       | none => none) := by
  match cs with
  | [] => simp only [grabTail, if_neg hc]
  | c2 :: cs2 => simp only [grabTail, if_neg hc]

/-- The inner text of a `[[...]]` match: like `grabTail` but the inner run must
be non-empty, mirroring the `+` in `([^\]]+?)`. -/
def grabInner (l : List Char) : Option (List Char × List Char) :=
  match grabTail l with
  | some ([], _) => none
  | some (inn, rest) => some (inn, rest)
  | none => none

theorem grabTail_eq : ∀ {l inn rest : List Char}, grabTail l = some (inn, rest) →
    l = inn ++ ']' :: ']' :: rest ∧ ']' ∉ inn := by
  intro l
  induction l with
  | nil => intro inn rest h; simp [grabTail_nil] at h
  | cons c cs ih =>
    intro inn rest h
    by_cases hc : c = ']'
    · subst hc
      match cs with
      | [] => exact absurd h (by simp [grabTail_rb_nil])
      | c2 :: cs2 =>
        rw [grabTail_rb_cons] at h
        by_cases hc2 : c2 = ']'
        · rw [if_pos hc2] at h
          simp only [Option.some.injEq, Prod.mk.injEq] at h
          obtain ⟨h1, h2⟩ := h
          subst hc2; subst h1; subst h2
          simp
        · rw [if_neg hc2] at h
          exact absurd h (by simp)
    · rw [grabTail_cons_ne cs hc] at h
      match hgt : grabTail cs with
      | some (inn', rest') =>
        rw [hgt] at h
        simp only [Option.some.injEq, Prod.mk.injEq] at h
        obtain ⟨h1, h2⟩ := h
        subst h2
        obtain ⟨hcs, hnot⟩ := ih hgt
        constructor
        · rw [← h1]; simp [hcs]
        · rw [← h1]
          intro hmem
          rcases List.mem_cons.mp hmem with h | h
          · exact hc h.symm
          · exact hnot h
      | none => rw [hgt] at h; exact absurd h (by simp)

theorem grabTail_append {x u : List Char} (hx : ']' ∉ x) :
    grabTail (x ++ ']' :: ']' :: u) = some (x, u) := by
  induction x with
  | nil => simp [grabTail_rb_cons]
  | cons c cs ih =>
    have hc : c ≠ ']' := fun h => hx (h ▸ List.mem_cons_self c cs)
    have hcs : ']' ∉ cs := fun h => hx (List.mem_cons_of_mem c h)
    rw [List.cons_append, grabTail_cons_ne _ hc, ih hcs]

theorem grabInner_eq {l inn rest : List Char} (h : grabInner l = some (inn, rest)) :
    l = inn ++ ']' :: ']' :: rest ∧ ']' ∉ inn ∧ inn ≠ [] := by
  unfold grabInner at h
  match hgt : grabTail l with
  | some ([], r) => rw [hgt] at h; exact absurd h (by simp)
  | some (c :: inn', r) =>
    rw [hgt] at h
    simp only [Option.some.injEq, Prod.mk.injEq] at h
    obtain ⟨h1, h2⟩ := h
    subst h1; subst h2
    obtain ⟨hl, hn⟩ := grabTail_eq hgt
    exact ⟨hl, hn, by simp⟩
  | none => rw [hgt] at h; exact absurd h (by simp)

theorem grabInner_append {x u : List Char} (hx : ']' ∉ x) (hne : x ≠ []) :
    grabInner (x ++ ']' :: ']' :: u) = some (x, u) := by
  unfold grabInner
  rw [grabTail_append hx]
  match x, hne with
  | c :: cs, _ => rfl

theorem grabInner_length {l inn rest : List Char} (h : grabInner l = some (inn, rest)) :
    rest.length + inn.length + 2 = l.length := by
  obtain ⟨hl, -, -⟩ := grabInner_eq h
  subst hl; simp; omega

theorem grabInner_nil : grabInner [] = none := rfl

/-- A token of the scan: either a single character the regex engine stepped
over, or a matched reference occurrence `[[inner]]`. -/
inductive Tok where
  | raw (c : Char)
  | link (inner : List Char)
  deriving DecidableEq, Repr

/-- Concatenate tokens back into text.  A `link a` token stands for the matched
text `"[[" ++ a ++ "]]"`. -/
def render : List Tok → List Char
  | [] => []
  | .raw c :: ts => c :: render ts
  | .link a :: ts => '[' :: '[' :: (a ++ ']' :: ']' :: render ts)

/-- Fuel-indexed tokenizer implementing the `REGEX.exec` loop; `fuel` bounds
the number of characters left and is only a termination device (`tokenize`
supplies `s.length`, which is always sufficient — see `tokenizeF_congr`). -/
def tokenizeF : Nat → List Char → List Tok
  | 0, _ => []
  | _ + 1, [] => []
  | fuel + 1, c :: cs =>
    if c = '[' then
      match cs with
      | c2 :: cs2 =>
        if c2 = '[' then
          match grabInner cs2 with
          | some (inn, after) => .link inn :: tokenizeF fuel after
          | none => .raw c :: tokenizeF fuel cs
        else .raw c :: tokenizeF fuel cs
      | [] => [.raw c]
    else .raw c :: tokenizeF fuel cs

theorem tokenizeF_zero (s : List Char) : tokenizeF 0 s = [] := rfl

theorem tokenizeF_succ_nil (fuel : Nat) : tokenizeF (fuel + 1) [] = [] := rfl

theorem tokenizeF_cons (fuel : Nat) (c : Char) (cs : List Char) :
    tokenizeF (fuel + 1) (c :: cs) =
      if c = '[' then
        (match cs with
         | c2 :: cs2 =>
           if c2 = '[' then
             (match grabInner cs2 with
              | some (inn, after) => .link inn :: tokenizeF fuel after
              | none => .raw c :: tokenizeF fuel cs)
           else .raw c :: tokenizeF fuel cs
         | [] => [.raw c])
      else .raw c :: tokenizeF fuel cs := rfl

theorem tokenizeF_cons_ne (fuel : Nat) {c : Char} (cs : List Char) (hc : c ≠ '[') :
    tokenizeF (fuel + 1) (c :: cs) = .raw c :: tokenizeF fuel cs := by
  rw [tokenizeF_cons, if_neg hc]

theorem tokenizeF_lb_nil (fuel : Nat) : tokenizeF (fuel + 1) ['['] = [.raw '['] := rfl

theorem tokenizeF_lb_cons (fuel : Nat) (c2 : Char) (cs2 : List Char) :
    tokenizeF (fuel + 1) ('[' :: c2 :: cs2) =
      if c2 = '[' then
        (match grabInner cs2 with
         | some (inn, after) => .link inn :: tokenizeF fuel after
         | none => .raw '[' :: tokenizeF fuel (c2 :: cs2))
      else .raw '[' :: tokenizeF fuel (c2 :: cs2) := rfl

theorem tokenizeF_two (fuel : Nat) {c2 : Char} (cs2 : List Char) (hc2 : c2 ≠ '[') :
    tokenizeF (fuel + 1) ('[' :: c2 :: cs2) = .raw '[' :: tokenizeF fuel (c2 :: cs2) := by
  rw [tokenizeF_lb_cons, if_neg hc2]

theorem tokenizeF_match (fuel : Nat) {cs2 inn after : List Char}
    (hg : grabInner cs2 = some (inn, after)) :
    tokenizeF (fuel + 1) ('[' :: '[' :: cs2) = .link inn :: tokenizeF fuel after := by
  rw [tokenizeF_lb_cons, if_pos rfl, hg]

theorem tokenizeF_nomatch (fuel : Nat) {cs2 : List Char} (hg : grabInner cs2 = none) :
    tokenizeF (fuel + 1) ('[' :: '[' :: cs2) = .raw '[' :: tokenizeF fuel ('[' :: cs2) := by
  rw [tokenizeF_lb_cons, if_pos rfl, hg]

/-- `tokenize s` is the exec-loop scan of `s`: the list of matches of
`/\[\[([^\]]+?)\]\]/g` (as `link` tokens) interleaved with the characters the
engine skipped (as `raw` tokens), in text order. -/
def tokenize (s : List Char) : List Tok := tokenizeF s.length s

theorem tokenizeF_congr : ∀ (m n : Nat) (s : List Char),
    s.length ≤ m → s.length ≤ n → tokenizeF m s = tokenizeF n s := by
  intro m
  induction m with
  | zero =>
    intro n s hm _
    have : s = [] := List.eq_nil_of_length_eq_zero (Nat.le_zero.mp hm)
    subst this
    cases n <;> rfl
  | succ m ih =>
    intro n s hm hn
    match s, n with
    | [], n => cases n <;> rfl
    | c :: cs, 0 => exact absurd hn (by simp)
    | c :: cs, n + 1 =>
      by_cases hc : c = '['
      · subst hc
        match cs with
        | [] => rfl
        | c2 :: cs2 =>
          by_cases hc2 : c2 = '['
          · subst hc2
            match hg : grabInner cs2 with
            | some (inn, after) =>
              have hlen := grabInner_length hg
              simp only [List.length_cons] at hm hn
              rw [tokenizeF_match m hg, tokenizeF_match n hg,
                ih n after (by omega) (by omega)]
            | none =>
              simp only [List.length_cons] at hm hn
              rw [tokenizeF_nomatch m hg, tokenizeF_nomatch n hg,
                ih n ('[' :: cs2) (by simp; omega) (by simp; omega)]
          · simp only [List.length_cons] at hm hn
            rw [tokenizeF_two m cs2 hc2, tokenizeF_two n cs2 hc2,
              ih n (c2 :: cs2) (by simp; omega) (by simp; omega)]
      · simp only [List.length_cons] at hm hn
        rw [tokenizeF_cons_ne m cs hc, tokenizeF_cons_ne n cs hc,
          ih n cs (by omega) (by omega)]

theorem tokenize_nil : tokenize [] = [] := rfl

theorem tokenize_cons_ne {c : Char} (cs : List Char) (hc : c ≠ '[') :
    tokenize (c :: cs) = .raw c :: tokenize cs :=
  tokenizeF_cons_ne cs.length cs hc

theorem tokenize_lb_nil : tokenize ['['] = [.raw '['] := rfl

theorem tokenize_two {c2 : Char} (cs2 : List Char) (hc2 : c2 ≠ '[') :
    tokenize ('[' :: c2 :: cs2) = .raw '[' :: tokenize (c2 :: cs2) :=
  tokenizeF_two (cs2.length + 1) cs2 hc2

theorem tokenize_match {cs2 inn after : List Char}
    (hg : grabInner cs2 = some (inn, after)) :
    tokenize ('[' :: '[' :: cs2) = .link inn :: tokenize after := by
  have hlen := grabInner_length hg
  rw [tokenize, List.length_cons, List.length_cons, tokenizeF_match (cs2.length + 1) hg,
    tokenizeF_congr (cs2.length + 1) after.length after (by omega) le_rfl]
  rfl

theorem tokenize_nomatch {cs2 : List Char} (hg : grabInner cs2 = none) :
    tokenize ('[' :: '[' :: cs2) = .raw '[' :: tokenize ('[' :: cs2) := by
  rw [tokenize, List.length_cons, List.length_cons, tokenizeF_nomatch (cs2.length + 1) hg]
  rfl

theorem render_tokenizeF : ∀ (fuel : Nat) (s : List Char), s.length ≤ fuel →
    render (tokenizeF fuel s) = s := by
  intro fuel
  induction fuel with
  | zero =>
    intro s hs
    have : s = [] := List.eq_nil_of_length_eq_zero (Nat.le_zero.mp hs)
    subst this; rfl
  | succ fuel ih =>
    intro s hs
    match s with
    | [] => rfl
    | c :: cs =>
      by_cases hc : c = '['
      · subst hc
        match cs with
        | [] => rfl
        | c2 :: cs2 =>
          by_cases hc2 : c2 = '['
          · subst hc2
            match hg : grabInner cs2 with
            | some (inn, after) =>
              obtain ⟨hcs2, -, -⟩ := grabInner_eq hg
              have hlen := grabInner_length hg
              simp only [List.length_cons] at hs
              rw [tokenizeF_match fuel hg]
              simp only [render, ih after (by omega)]
              rw [hcs2]
            | none =>
              simp only [List.length_cons] at hs
              rw [tokenizeF_nomatch fuel hg]
              simp only [render, ih ('[' :: cs2) (by simp; omega)]
          · simp only [List.length_cons] at hs
            rw [tokenizeF_two fuel cs2 hc2]
            simp only [render, ih (c2 :: cs2) (by simp; omega)]
      · simp only [List.length_cons] at hs
        rw [tokenizeF_cons_ne fuel cs hc]
        simp only [render, ih cs (by omega)]

/-- Scanning and re-concatenating is the identity: the tokens of `s` are a
decomposition of `s`. -/
theorem render_tokenize (s : List Char) : render (tokenize s) = s :=
  render_tokenizeF s.length s le_rfl

/-- Well-formedness of a token: the inner text of every matched occurrence is
non-empty and contains no `']'` (forced by the scan pattern `([^\]]+?)`). -/
def goodTok : Tok → Prop
  | .raw _ => True
  | .link a => a ≠ [] ∧ ']' ∉ a

theorem tokenizeF_good : ∀ (fuel : Nat) (s : List Char), ∀ t ∈ tokenizeF fuel s, goodTok t := by
  intro fuel
  induction fuel with
  | zero => intro s t ht; simp [tokenizeF_zero] at ht
  | succ fuel ih =>
    intro s t ht
    match s with
    | [] => simp [tokenizeF_succ_nil] at ht
    | c :: cs =>
      by_cases hc : c = '['
      · subst hc
        match cs with
        | [] =>
          rw [tokenizeF_lb_nil] at ht
          simp only [List.mem_singleton] at ht
          subst ht; trivial
        | c2 :: cs2 =>
          by_cases hc2 : c2 = '['
          · subst hc2
            match hg : grabInner cs2 with
            | some (inn, after) =>
              rw [tokenizeF_match fuel hg] at ht
              rcases List.mem_cons.mp ht with h | h
              · subst h
                obtain ⟨-, hn, hne⟩ := grabInner_eq hg
                exact ⟨hne, hn⟩
              · exact ih after t h
            | none =>
              rw [tokenizeF_nomatch fuel hg] at ht
              rcases List.mem_cons.mp ht with h | h
              · subst h; trivial
              · exact ih ('[' :: cs2) t h
          · rw [tokenizeF_two fuel cs2 hc2] at ht
            rcases List.mem_cons.mp ht with h | h
            · subst h; trivial
            · exact ih (c2 :: cs2) t h
      · rw [tokenizeF_cons_ne fuel cs hc] at ht
        rcases List.mem_cons.mp ht with h | h
        · subst h; trivial
        · exact ih cs t h

theorem tokenize_good (s : List Char) : ∀ t ∈ tokenize s, goodTok t :=
  tokenizeF_good s.length s

theorem render_raw_cons (c : Char) (ts : List Tok) :
    render (.raw c :: ts) = c :: render ts := rfl

theorem render_link_cons (a : List Char) (ts : List Tok) :
    render (.link a :: ts) = ('[' :: '[' :: (a ++ [']', ']'])) ++ render ts := by
  simp [render]

theorem render_link_length (a : List Char) :
    ('[' :: '[' :: (a ++ [']', ']'])).length = a.length + 4 := by
  simp

/-!
## Reference occurrences

A located regex match, as consumed by `handleEditorChange`:
`start = match.index` (offset of the first `[`), `stop = match.index +
fullMatch.length` (one past the final `]`; the source calls it `endIndex`,
derived from `end` — a Lean keyword), `inner = match[1]`.
-/

structure Occ where
  start : Nat
  stop : Nat
  inner : List Char
  deriving DecidableEq, Repr

/-- The occurrences of a token list, with `p` the absolute offset of the first
token.  A `raw` token advances one character, a `link a` token spans
`a.length + 4` characters (`[[` + inner + `]]`). -/
def occsAux : List Tok → Nat → List Occ
  | [], _ => []
  | .raw _ :: ts, p => occsAux ts (p + 1)
  | .link a :: ts, p => ⟨p, p + a.length + 4, a⟩ :: occsAux ts (p + a.length + 4)

/-- All matches of the exec loop over `s`, in scan order, with absolute
offsets. -/
def occurrences (s : List Char) : List Occ := occsAux (tokenize s) 0

theorem occsAux_start_le : ∀ (ts : List Tok) (p : Nat), ∀ o ∈ occsAux ts p, p ≤ o.start := by
  intro ts
  induction ts with
  | nil => intro p o ho; simp [occsAux] at ho
  | cons t ts ih =>
    intro p o ho
    match t with
    | .raw c =>
      simp only [occsAux] at ho
      exact le_trans (Nat.le_succ p) (ih (p + 1) o ho)
    | .link a =>
      simp only [occsAux] at ho
      rcases List.mem_cons.mp ho with h | h
      · subst h; exact le_refl p
      · exact le_trans (by omega) (ih (p + a.length + 4) o h)

theorem occsAux_stop_eq : ∀ (ts : List Tok) (p : Nat), ∀ o ∈ occsAux ts p,
    o.stop = o.start + o.inner.length + 4 := by
  intro ts
  induction ts with
  | nil => intro p o ho; simp [occsAux] at ho
  | cons t ts ih =>
    intro p o ho
    match t with
    | .raw c => exact ih (p + 1) o ho
    | .link a =>
      rcases List.mem_cons.mp ho with h | h
      · subst h; rfl
      · exact ih (p + a.length + 4) o h

theorem occsAux_stop_le : ∀ (ts : List Tok) (p : Nat), ∀ o ∈ occsAux ts p,
    o.stop ≤ p + (render ts).length := by
  intro ts
  induction ts with
  | nil => intro p o ho; simp [occsAux] at ho
  | cons t ts ih =>
    intro p o ho
    match t with
    | .raw c =>
      have := ih (p + 1) o ho
      rw [render_raw_cons]
      simp only [List.length_cons]
      omega
    | .link a =>
      rw [render_link_cons, List.length_append, render_link_length]
      rcases List.mem_cons.mp ho with h | h
      · subst h; simp; omega
      · have := ih (p + a.length + 4) o h
        omega

theorem occsAux_pairwise : ∀ (ts : List Tok) (p : Nat),
    List.Pairwise (fun o1 o2 => o1.stop ≤ o2.start) (occsAux ts p) := by
  intro ts
  induction ts with
  | nil => intro p; simp [occsAux]
  | cons t ts ih =>
    intro p
    match t with
    | .raw c => exact ih (p + 1)
    | .link a =>
      refine List.pairwise_cons.mpr ⟨?_, ih (p + a.length + 4)⟩
      intro o ho
      exact occsAux_start_le ts (p + a.length + 4) o ho

theorem occsAux_mem_link : ∀ (ts : List Tok) (p : Nat), ∀ o ∈ occsAux ts p,
    Tok.link o.inner ∈ ts := by
  intro ts
  induction ts with
  | nil => intro p o ho; simp [occsAux] at ho
  | cons t ts ih =>
    intro p o ho
    match t with
    | .raw c => exact List.mem_cons_of_mem _ (ih (p + 1) o ho)
    | .link a =>
      rcases List.mem_cons.mp ho with h | h
      · subst h; exact List.mem_cons_self _ _
      · exact List.mem_cons_of_mem _ (ih (p + a.length + 4) o h)

theorem link_mem_occsAux : ∀ (ts : List Tok) (p : Nat) (a : List Char),
    Tok.link a ∈ ts → ∃ o ∈ occsAux ts p, o.inner = a := by
  intro ts
  induction ts with
  | nil => intro p a ha; simp at ha
  | cons t ts ih =>
    intro p a ha
    match t with
    | .raw c =>
      rcases List.mem_cons.mp ha with h | h
      · exact absurd h (by simp)
      · exact ih (p + 1) a h
    | .link b =>
      rcases List.mem_cons.mp ha with h | h
      · have hb : b = a := by injection h with h'; exact h'.symm
        subst hb
        exact ⟨⟨p, p + b.length + 4, b⟩, List.mem_cons_self _ _, rfl⟩
      · obtain ⟨o, ho, hi⟩ := ih (p + b.length + 4) a h
        exact ⟨o, List.mem_cons_of_mem _ ho, hi⟩

theorem occsAux_start_inj : ∀ (ts : List Tok) (p : Nat), ∀ o ∈ occsAux ts p,
    ∀ o' ∈ occsAux ts p, o.start = o'.start → o = o' := by
  intro ts
  induction ts with
  | nil => intro p o ho; simp [occsAux] at ho
  | cons t ts ih =>
    intro p o ho o' ho' heq
    match t with
    | .raw c => exact ih (p + 1) o ho o' ho' heq
    | .link a =>
      rcases List.mem_cons.mp ho with h | h <;> rcases List.mem_cons.mp ho' with h' | h'
      · rw [h, h']
      · exfalso
        have := occsAux_start_le ts (p + a.length + 4) o' h'
        subst h
        simp only at heq
        omega
      · exfalso
        have := occsAux_start_le ts (p + a.length + 4) o h
        subst h'
        simp only at heq
        omega
      · exact ih (p + a.length + 4) o h o' h' heq

theorem occurrences_inner_good (s : List Char) :
    ∀ o ∈ occurrences s, ']' ∉ o.inner ∧ o.inner ≠ [] := by
  intro o ho
  have hlink := occsAux_mem_link (tokenize s) 0 o ho
  have hg := tokenize_good s _ hlink
  exact ⟨hg.2, hg.1⟩

/-!
## The Rewriter — `handleEditorChange` (src/main.ts)

The resolver parameter `resolve` models
`this.app.metadataCache.getFirstLinkpathDest(inner, activeFile.path)` together
with the `dest instanceof TFile` guard: `resolve inner = some path` when a
regular file with path `path` (`dest.path`) is found, and `none` otherwise
(the context path `activeFile.path` is fixed for one invocation and is
absorbed into the function).
-/

/-- `dest.path.replace(/\.md$/, '')` — strip one trailing `.md` suffix. -/
def stripMd (path : List Char) : List Char :=
  if ['.', 'm', 'd'].isSuffixOf path then path.take (path.length - 3) else path

/-- `"[[" + x + "]]"` as a character list. -/
def wrap (x : List Char) : List Char := '[' :: '[' :: (x ++ [']', ']'])

theorem wrap_inj {a b : List Char} (h : wrap a = wrap b) : a = b := by
  unfold wrap at h
  injection h with h1 h
  injection h with h2 h
  exact List.append_cancel_right h

theorem wrap_append (x u : List Char) : wrap x ++ u = '[' :: '[' :: (x ++ ']' :: ']' :: u) := by
  simp [wrap]

/-- A replacement operation `{ start, end, replacement }` over the original
text (`end` is a Lean keyword, rendered here as `stop`). -/
structure Rep where
  start : Nat
  stop : Nat
  replacement : List Char
  deriving DecidableEq, Repr

/-- The body of the scan loop of `handleEditorChange` for one match: skip
inners that already contain a slash, skip unresolvable inners, skip when the
replacement text equals the matched text, otherwise record
`{start, end, "[[" + fullPathNoExt + "]]"}`. -/
def repOf (resolve : List Char → Option (List Char)) (o : Occ) : Option Rep :=
  if '/' ∈ o.inner then none
  else
    match resolve o.inner with
    | none => none
    | some path =>
      let fullPathNoExt := stripMd path
      let replacement := wrap fullPathNoExt
      if replacement = wrap o.inner then none
      else some ⟨o.start, o.stop, replacement⟩

/-- The full list of replacement operations recorded by one scan of
`documentText`, in match (ascending-start) order. -/
def computeReplacements (resolve : List Char → Option (List Char)) (s : List Char) : List Rep :=
  (occurrences s).filterMap (repOf resolve)

/-- One splice step of the apply loop:
`newContent.slice(0, r.start) + r.replacement + newContent.slice(r.end)`. -/
def splice1 (s : List Char) (r : Rep) : List Char :=
  s.take r.start ++ r.replacement ++ s.drop r.stop

/-- The apply loop: fold `splice1` over the replacement list, which the source
has sorted in descending order of `start` (so earlier offsets stay valid). -/
def applyReplacements (s : List Char) (repsDesc : List Rep) : List Char :=
  repsDesc.foldl splice1 s

/-- The per-operation cursor delta `r.replacement.length - (r.end - r.start)`.
JS arithmetic on these quantities is exact integer arithmetic, modelled by
`Int`. -/
def repDelta (r : Rep) : Int :=
  (r.replacement.length : Int) - ((r.stop : Int) - (r.start : Int))

/-- The two sequential clamping `if`s of `handleEditorChange`:
`if (newOffset < 0) newOffset = 0; if (newOffset > newContent.length)
newOffset = newContent.length;`. -/
def clampCursor (n0 : Int) (newLen : Nat) : Nat :=
  (if (if n0 < 0 then 0 else n0) > (newLen : Int) then (newLen : Int)
   else (if n0 < 0 then 0 else n0)).toNat

/-- The cursor-remapping loop of `handleEditorChange`: walk the (sorted)
replacement list, add `replacement.length - (end - start)` for every operation
strictly before the cursor (`deltaBefore`), add it to the original offset, and
clamp into `[0, newContent.length]`. -/
def cursorAfter (repsDesc : List Rep) (primaryOffset : Nat) (newLen : Nat) : Nat :=
  clampCursor ((primaryOffset : Int) +
    repsDesc.foldl (fun acc r => if r.start < primaryOffset then acc + repDelta r else acc) 0)
    newLen

/-- The observable result of one `handleEditorChange` invocation, per the
Rewriter contract `rewrite(documentText, cursorOffset, contextPath, resolve)
-> { newText, newCursorOffset, changed }`:
`newText`/`newCursorOffset` are the editor text and cursor after the call
(`setValue`/`setCursor` run only when `changed && newContent !== original`),
and `changed` is the flag set by the apply loop (true iff some replacement was
recorded). -/
structure RewriteResult where
  newText : List Char
  newCursorOffset : Nat
  changed : Bool
  deriving DecidableEq, Repr

def rewrite (resolve : List Char → Option (List Char)) (documentText : List Char)
    (cursorOffset : Nat) : RewriteResult :=
  -- `replacements.sort((a, b) => b.start - a.start)`: `computeReplacements` is
  -- strictly ascending in `start` (matches are found left to right and
  -- occurrence starts strictly increase, see `repsBound_computeReplacements`),
  -- so the descending sort is exactly `List.reverse`.  `changed` is set by the
  -- apply loop iff the replacement list is non-empty, and the new text and
  -- cursor are applied only under `changed && newContent !== original`.
  if (!(computeReplacements resolve documentText).isEmpty) = true ∧
      applyReplacements documentText (computeReplacements resolve documentText).reverse ≠
        documentText then
    { newText := applyReplacements documentText (computeReplacements resolve documentText).reverse
      newCursorOffset := cursorAfter (computeReplacements resolve documentText).reverse
        cursorOffset
        (applyReplacements documentText (computeReplacements resolve documentText).reverse).length
      changed := !(computeReplacements resolve documentText).isEmpty }
  else
    { newText := documentText, newCursorOffset := cursorOffset,
      changed := !(computeReplacements resolve documentText).isEmpty }

/-- The text transformation of the Rewriter, seen token-wise: a resolved
slash-free inner is replaced by its stripped canonical path, everything else
is untouched. -/
def fRepl (resolve : List Char → Option (List Char)) : Tok → Tok
  | .raw c => .raw c
  | .link a =>
    if '/' ∈ a then .link a
    else
      match resolve a with
      | none => .link a
      | some path => .link (stripMd path)

theorem repOf_eq (R : List Char → Option (List Char)) (o : Occ) :
    repOf R o =
      if '/' ∈ o.inner then none
      else
        (match R o.inner with
         | none => none
         | some path =>
           if wrap (stripMd path) = wrap o.inner then none
           else some ⟨o.start, o.stop, wrap (stripMd path)⟩) := rfl

theorem fRepl_raw (R : List Char → Option (List Char)) (c : Char) :
    fRepl R (.raw c) = .raw c := rfl

theorem fRepl_link (R : List Char → Option (List Char)) (a : List Char) :
    fRepl R (.link a) =
      if '/' ∈ a then .link a
      else
        (match R a with
         | none => .link a
         | some path => .link (stripMd path)) := rfl

theorem repOf_none_iff (R : List Char → Option (List Char)) (o : Occ) :
    repOf R o = none ↔ fRepl R (.link o.inner) = .link o.inner := by
  by_cases hs : '/' ∈ o.inner
  · simp [repOf_eq, fRepl_link, hs]
  · cases hR : R o.inner with
    | none => simp [repOf_eq, fRepl_link, hs, hR]
    | some path =>
      by_cases he : stripMd path = o.inner
      · simp [repOf_eq, fRepl_link, hs, hR, he]
      · have hw : wrap (stripMd path) ≠ wrap o.inner := fun h => he (wrap_inj h)
        simp [repOf_eq, fRepl_link, hs, hR, he, hw]

theorem repOf_some (R : List Char → Option (List Char)) (o : Occ) (r : Rep)
    (h : repOf R o = some r) :
    r.start = o.start ∧ r.stop = o.stop ∧ '/' ∉ o.inner ∧
      ∃ path, R o.inner = some path ∧ r.replacement = wrap (stripMd path) ∧
        stripMd path ≠ o.inner ∧ fRepl R (.link o.inner) = .link (stripMd path) := by
  rw [repOf_eq] at h
  by_cases hs : '/' ∈ o.inner
  · rw [if_pos hs] at h; exact absurd h (by simp)
  · rw [if_neg hs] at h
    cases hR : R o.inner with
    | none => rw [hR] at h; exact absurd h (by simp)
    | some path =>
      rw [hR] at h
      by_cases he : wrap (stripMd path) = wrap o.inner
      · simp only [if_pos he] at h; exact absurd h (by simp)
      · simp only [if_neg he] at h
        have hr' : r = ⟨o.start, o.stop, wrap (stripMd path)⟩ := by
          injection h with h'; exact h'.symm
        subst hr'
        refine ⟨rfl, rfl, hs, path, hR ▸ rfl, rfl, fun hc => he (by rw [hc]), ?_⟩
        rw [fRepl_link, if_neg hs, hR]

/-!
## Applying replacements

`RepsBound lo rs hi` says the operation list `rs` is ascending, with
well-ordered non-overlapping ranges all inside `[lo, hi]` — the shape
`computeReplacements` always produces (matches are found left to right and
never overlap).  Under it, the source's descending-order apply loop has the
simple left-to-right description `spliceSorted`.
-/

inductive RepsBound : Nat → List Rep → Nat → Prop where
  | nil : ∀ {lo hi : Nat}, lo ≤ hi → RepsBound lo [] hi
  | cons : ∀ {lo hi : Nat} {r : Rep} {rs : List Rep},
      lo ≤ r.start → r.start ≤ r.stop → RepsBound r.stop rs hi →
      RepsBound lo (r :: rs) hi

theorem RepsBound.le : ∀ {lo rs hi}, RepsBound lo rs hi → lo ≤ hi := by
  intro lo rs hi h
  induction h with
  | nil h => exact h
  | cons h1 h2 _ ih => omega

theorem RepsBound.weaken : ∀ {lo lo' rs hi hi'}, RepsBound lo rs hi →
    lo' ≤ lo → hi ≤ hi' → RepsBound lo' rs hi' := by
  intro lo lo' rs hi hi' h
  induction h generalizing lo' hi' with
  | nil h => intro h1 h2; exact .nil (by omega)
  | cons h1 h2 h3 ih =>
    intro hl hh
    exact .cons (by omega) h2 (ih le_rfl hh)

theorem RepsBound.mem : ∀ {lo rs hi}, RepsBound lo rs hi →
    ∀ r ∈ rs, lo ≤ r.start ∧ r.start ≤ r.stop ∧ r.stop ≤ hi := by
  intro lo rs hi h
  induction h with
  | nil _ => intro r hr; simp at hr
  | cons h1 h2 h3 ih =>
    intro r hr
    rcases List.mem_cons.mp hr with h | h
    · subst h; exact ⟨h1, h2, h3.le⟩
    · have := ih r h; omega

theorem RepsBound.append_singleton : ∀ {lo rs r hi}, RepsBound lo (rs ++ [r]) hi →
    RepsBound lo rs r.start ∧ r.start ≤ r.stop ∧ r.stop ≤ hi := by
  intro lo rs
  induction rs generalizing lo with
  | nil =>
    intro r hi h
    cases h with
    | cons h1 h2 h3 => exact ⟨.nil h1, h2, h3.le⟩
  | cons r' rs ih =>
    intro r hi h
    cases h with
    | cons h1 h2 h3 =>
      obtain ⟨hb, hss, hsh⟩ := ih h3
      exact ⟨.cons h1 h2 hb, hss, hsh⟩

/-- Left-to-right semantics of applying an ascending operation list: `base` is
the absolute offset of the head of `s` (a suffix of the original document). -/
def spliceSorted : List Rep → List Char → Nat → List Char
  | [], s, _ => s
  | r :: rs, s, base =>
    s.take (r.start - base) ++ r.replacement ++
      spliceSorted rs (s.drop (r.stop - base)) r.stop

theorem spliceSorted_nil (s : List Char) (base : Nat) : spliceSorted [] s base = s := rfl

theorem spliceSorted_cons (r : Rep) (rs : List Rep) (s : List Char) (base : Nat) :
    spliceSorted (r :: rs) s base =
      s.take (r.start - base) ++ r.replacement ++
        spliceSorted rs (s.drop (r.stop - base)) r.stop := rfl

/-- Splicing below every operation's range commutes with a fixed prefix. -/
theorem spliceSorted_append (w u : List Char) (rs : List Rep) (base : Nat)
    (h : ∀ r ∈ rs, base + w.length ≤ r.start ∧ r.start ≤ r.stop) :
    spliceSorted rs (w ++ u) base = w ++ spliceSorted rs u (base + w.length) := by
  match rs with
  | [] => rfl
  | r :: rs' =>
    obtain ⟨h1, h2⟩ := h r (List.mem_cons_self _ _)
    rw [spliceSorted_cons, spliceSorted_cons]
    have htake : (w ++ u).take (r.start - base) = w ++ u.take (r.start - (base + w.length)) := by
      rw [List.take_append_eq_append_take,
        List.take_of_length_le (show w.length ≤ r.start - base by omega)]
      have he : r.start - base - w.length = r.start - (base + w.length) := by omega
      rw [he]
    have hdrop : (w ++ u).drop (r.stop - base) = u.drop (r.stop - (base + w.length)) := by
      rw [List.drop_append_eq_append_drop,
        List.drop_of_length_le (show w.length ≤ r.stop - base by omega)]
      have he : r.stop - base - w.length = r.stop - (base + w.length) := by omega
      rw [List.nil_append, he]
    rw [htake, hdrop]
    simp [List.append_assoc]

theorem spliceSorted_snoc : ∀ (rs : List Rep) (r : Rep) (s : List Char) (base : Nat),
    RepsBound base rs r.start → r.start ≤ r.stop → r.stop ≤ base + s.length →
    spliceSorted (rs ++ [r]) s base =
      spliceSorted rs (s.take (r.start - base) ++ r.replacement ++ s.drop (r.stop - base)) base := by
  intro rs
  induction rs with
  | nil =>
    intro r s base _ _ _
    rw [List.nil_append, spliceSorted_cons, spliceSorted_nil, spliceSorted_nil]
  | cons r' rs' ih =>
    intro r s base hb hss hsh
    cases hb with
    | cons h1 h2 h3 =>
      have hr'r : r'.stop ≤ r.start := h3.le
      have hstart_le : r.start - base ≤ s.length := by omega
      rw [List.cons_append, spliceSorted_cons, spliceSorted_cons]
      have htake : (s.take (r.start - base) ++ r.replacement ++ s.drop (r.stop - base)).take
          (r'.start - base) = s.take (r'.start - base) := by
        rw [List.append_assoc, List.take_append_eq_append_take]
        have hlen : r'.start - base ≤ (s.take (r.start - base)).length := by
          rw [List.length_take]
          omega
        rw [Nat.sub_eq_zero_of_le hlen, List.take_zero, List.append_nil,
          List.take_take, Nat.min_def, if_pos (by omega)]
      have hdrop : (s.take (r.start - base) ++ r.replacement ++ s.drop (r.stop - base)).drop
          (r'.stop - base) =
          (s.drop (r'.stop - base)).take (r.start - r'.stop) ++ r.replacement ++
            (s.drop (r'.stop - base)).drop (r.stop - r'.stop) := by
        rw [List.append_assoc, List.drop_append_eq_append_drop]
        have hlen : r'.stop - base ≤ (s.take (r.start - base)).length := by
          rw [List.length_take]
          omega
        rw [Nat.sub_eq_zero_of_le hlen, List.drop_zero, List.drop_take]
        have h1' : r.start - base - (r'.stop - base) = r.start - r'.stop := by omega
        have h2' : (s.drop (r'.stop - base)).drop (r.stop - r'.stop) = s.drop (r.stop - base) := by
          rw [List.drop_drop]
          congr 1
          omega
        rw [h1', h2', List.append_assoc]
      rw [htake, hdrop]
      have := ih r (s.drop (r'.stop - base)) r'.stop h3 hss
        (by rw [List.length_drop]; omega)
      rw [this]

theorem applyReplacements_nil (s : List Char) : applyReplacements s [] = s := rfl

/-- The source's descending-order apply loop agrees with the left-to-right
splice semantics on any well-shaped operation list. -/
theorem applyReplacements_eq_spliceSorted (rs : List Rep) (s : List Char)
    (hb : RepsBound 0 rs s.length) :
    applyReplacements s rs.reverse = spliceSorted rs s 0 := by
  induction rs using List.reverseRecOn generalizing s with
  | nil => rfl
  | append_singleton rs' r ih =>
    obtain ⟨hb', hss, hsh⟩ := RepsBound.append_singleton hb
    have hfold : applyReplacements s (rs' ++ [r]).reverse =
        applyReplacements (splice1 s r) rs'.reverse := by
      rw [List.reverse_append, List.reverse_singleton]
      rfl
    rw [hfold]
    have hsplice : splice1 s r = s.take (r.start - 0) ++ r.replacement ++ s.drop (r.stop - 0) := by
      simp [splice1]
    have hlen : r.start ≤ (splice1 s r).length := by
      unfold splice1
      simp only [List.length_append, List.length_take]
      have : r.start ≤ s.length := by omega
      omega
    rw [ih (splice1 s r) (hb'.weaken le_rfl hlen), hsplice,
      spliceSorted_snoc rs' r s 0 hb' hss (by omega)]

theorem repsBound_filterMap (R : List Char → Option (List Char)) :
    ∀ (ts : List Tok) (p : Nat),
    RepsBound p ((occsAux ts p).filterMap (repOf R)) (p + (render ts).length) := by
  intro ts
  induction ts with
  | nil => intro p; exact .nil (by simp [render])
  | cons t ts ih =>
    intro p
    match t with
    | .raw c =>
      have h := (ih (p + 1)).weaken (Nat.le_succ p) le_rfl
      rw [render_raw_cons]
      simp only [List.length_cons]
      have harith : p + 1 + (render ts).length = p + ((render ts).length + 1) := by omega
      rw [← harith]
      exact h
    | .link a =>
      rw [render_link_cons, List.length_append, render_link_length]
      simp only [occsAux, List.filterMap_cons]
      have harith : p + a.length + 4 + (render ts).length =
          p + (a.length + 4 + (render ts).length) := by omega
      cases hrep : repOf R ⟨p, p + a.length + 4, a⟩ with
      | none =>
        have h := (ih (p + a.length + 4)).weaken
          (show p ≤ p + a.length + 4 by omega) le_rfl
        rw [harith] at h
        exact h
      | some r =>
        obtain ⟨hstart, hstop, -, -⟩ := repOf_some R _ r hrep
        have hstart' : r.start = p := hstart
        have hstop' : r.stop = p + a.length + 4 := hstop
        refine .cons (by omega) (by omega) ?_
        rw [hstop']
        have h := ih (p + a.length + 4)
        rw [harith] at h
        exact h

theorem repsBound_computeReplacements (R : List Char → Option (List Char)) (s : List Char) :
    RepsBound 0 (computeReplacements R s) s.length := by
  have h := repsBound_filterMap R (tokenize s) 0
  rw [render_tokenize, Nat.zero_add] at h
  exact h

/-- The central description of the Rewriter's text transformation: applying
the recorded replacement operations to the rendered token list replaces each
resolved slash-free link by its canonical form and leaves everything else —
the map `fRepl` over the tokens. -/
theorem spliceSorted_fRepl (R : List Char → Option (List Char)) :
    ∀ (ts : List Tok) (p : Nat),
    spliceSorted ((occsAux ts p).filterMap (repOf R)) (render ts) p =
      render (ts.map (fRepl R)) := by
  intro ts
  induction ts with
  | nil => intro p; rfl
  | cons t ts ih =>
    intro p
    match t with
    | .raw c =>
      simp only [occsAux, List.map_cons, fRepl_raw, render_raw_cons]
      have hmem := (repsBound_filterMap R ts (p + 1)).mem
      have happ := spliceSorted_append [c] (render ts)
        ((occsAux ts (p + 1)).filterMap (repOf R)) p
        (fun r hr => by
          obtain ⟨h1, h2, -⟩ := hmem r hr
          constructor
          · simpa using h1
          · exact h2)
      have hc : ([c] : List Char) ++ render ts = c :: render ts := rfl
      rw [← hc, happ]
      simp only [List.length_cons, List.length_nil, List.cons_append, List.nil_append]
      rw [ih (p + 1)]
    | .link a =>
      simp only [occsAux, List.filterMap_cons, List.map_cons]
      cases hrep : repOf R ⟨p, p + a.length + 4, a⟩ with
      | none =>
        have hfix : fRepl R (.link a) = .link a := (repOf_none_iff R _).mp hrep
        rw [hfix, render_link_cons, render_link_cons]
        have hmem := (repsBound_filterMap R ts (p + a.length + 4)).mem
        have happ := spliceSorted_append ('[' :: '[' :: (a ++ [']', ']'])) (render ts)
          ((occsAux ts (p + a.length + 4)).filterMap (repOf R)) p
          (fun r hr => by
            obtain ⟨h1, h2, -⟩ := hmem r hr
            rw [render_link_length]
            exact ⟨by omega, h2⟩)
        rw [happ, render_link_length]
        have harith : p + (a.length + 4) = p + a.length + 4 := by omega
        rw [harith, ih (p + a.length + 4)]
      | some r =>
        obtain ⟨hstart, hstop, -, path, -, hrepl, -, hfix⟩ := repOf_some R _ r hrep
        rw [hfix, spliceSorted_cons, hstart, hstop]
        simp only [Nat.sub_self, List.take_zero, List.nil_append]
        have hdrop : (render (Tok.link a :: ts)).drop (p + a.length + 4 - p) = render ts := by
          rw [render_link_cons]
          have : p + a.length + 4 - p = a.length + 4 := by omega
          rw [this, List.drop_left' (render_link_length a)]
        rw [hdrop, ih (p + a.length + 4), hrepl, render_link_cons, wrap]

/-- `newContent` (the applied text) is the render of the token map, for any
resolver. -/
theorem applyReplacements_render (R : List Char → Option (List Char)) (s : List Char) :
    applyReplacements s (computeReplacements R s).reverse =
      render ((tokenize s).map (fRepl R)) := by
  rw [applyReplacements_eq_spliceSorted _ _ (repsBound_computeReplacements R s)]
  have h := spliceSorted_fRepl R (tokenize s) 0
  rw [render_tokenize] at h
  exact h

/-!
## The applied text differs from the original whenever an operation exists

Key fact behind the `changed && newContent !== original` guard: whenever at
least one replacement operation is recorded, the spliced text differs from the
original.  Counting `']'` characters: every changed link contributes at least
two extra `']'` unless its new inner is `']'`-free, and with all new inners
`']'`-free a prefix argument pins every link in place.
-/

/-- Number of `']'` characters a token contributes to the rendered text. -/
def tokBracketCount : Tok → Nat
  | .raw c => if c = ']' then 1 else 0
  | .link a => a.count ']' + 2

theorem render_count : ∀ ts : List Tok,
    (render ts).count ']' = (ts.map tokBracketCount).sum := by
  intro ts
  induction ts with
  | nil => rfl
  | cons t ts ih =>
    match t with
    | .raw c =>
      rw [render_raw_cons]
      simp only [List.count_cons, List.map_cons, List.sum_cons, ih, tokBracketCount]
      by_cases hc : c = ']'
      · simp [hc]
        omega
      · simp [hc]
    | .link a =>
      rw [render_link_cons]
      simp only [List.count_append, List.map_cons, List.sum_cons, ih, tokBracketCount]
      simp [List.count_cons, List.count_append]

theorem sum_map_le_pointwise {α : Type} : ∀ (l : List α) (g h : α → Nat),
    (∀ x ∈ l, g x ≤ h x) → (l.map g).sum ≤ (l.map h).sum := by
  intro l
  induction l with
  | nil => intro g h _; simp
  | cons y l ih =>
    intro g h hle
    simp only [List.map_cons, List.sum_cons]
    have h1 : g y ≤ h y := hle y (List.mem_cons_self _ _)
    have h2 := ih g h (fun x hx => hle x (List.mem_cons_of_mem _ hx))
    omega

theorem sum_map_eq_pointwise {α : Type} : ∀ (l : List α) (g h : α → Nat),
    (∀ x ∈ l, g x ≤ h x) → (l.map g).sum = (l.map h).sum → ∀ x ∈ l, g x = h x := by
  intro l
  induction l with
  | nil => intro g h _ _ x hx; simp at hx
  | cons y l ih =>
    intro g h hle hsum x hx
    simp only [List.map_cons, List.sum_cons] at hsum
    have hy : g y ≤ h y := hle y (List.mem_cons_self _ _)
    have htail : ∀ x ∈ l, g x ≤ h x := fun w hw => hle w (List.mem_cons_of_mem _ hw)
    have hl : (l.map g).sum ≤ (l.map h).sum := sum_map_le_pointwise l g h htail
    rcases List.mem_cons.mp hx with h' | h'
    · subst h'; omega
    · exact ih g h htail (by omega) x h'

theorem brackets_inj : ∀ (a b u v : List Char), ']' ∉ a → ']' ∉ b →
    a ++ ']' :: ']' :: u = b ++ ']' :: ']' :: v → a = b ∧ u = v := by
  intro a
  induction a with
  | nil =>
    intro b u v _ hb h
    match b with
    | [] =>
      simp only [List.nil_append] at h
      exact ⟨rfl, by injection h with _ h; injection h⟩
    | c :: b' =>
      exfalso
      simp only [List.nil_append, List.cons_append] at h
      injection h with h1 _
      exact hb (h1 ▸ List.mem_cons_self c b')
  | cons c a' ih =>
    intro b u v ha hb h
    match b with
    | [] =>
      exfalso
      simp only [List.nil_append, List.cons_append] at h
      injection h with h1 _
      exact ha (h1.symm ▸ List.mem_cons_self c a')
    | d :: b' =>
      simp only [List.cons_append] at h
      injection h with h1 h2
      have ha' : ']' ∉ a' := fun hm => ha (List.mem_cons_of_mem _ hm)
      have hb' : ']' ∉ b' := fun hm => hb (List.mem_cons_of_mem _ hm)
      obtain ⟨he, hu⟩ := ih b' u v ha' hb' h2
      exact ⟨by rw [h1, he], hu⟩

/-- `f` behaves like a per-token text substitution: it fixes skipped characters
and maps occurrences to occurrences. -/
def linkish (f : Tok → Tok) : Prop :=
  (∀ c, f (.raw c) = .raw c) ∧ (∀ a, ∃ b, f (.link a) = .link b)

theorem fRepl_linkish (R : List Char → Option (List Char)) : linkish (fRepl R) := by
  constructor
  · intro c; rfl
  · intro a
    by_cases hs : '/' ∈ a
    · exact ⟨a, by rw [fRepl_link, if_pos hs]⟩
    · cases hR : R a with
      | none => exact ⟨a, by rw [fRepl_link, if_neg hs, hR]⟩
      | some path => exact ⟨stripMd path, by rw [fRepl_link, if_neg hs, hR]⟩

theorem render_map_eq {f : Tok → Tok} (hf : linkish f) : ∀ ts : List Tok,
    (∀ t ∈ ts, goodTok t) → (∀ t ∈ ts, ∀ b, f t = .link b → ']' ∉ b) →
    render (ts.map f) = render ts → ts.map f = ts := by
  intro ts
  induction ts with
  | nil => intro _ _ _; rfl
  | cons t ts ih =>
    intro hgood hfree h
    match t with
    | .raw c =>
      rw [List.map_cons, hf.1 c] at h ⊢
      rw [render_raw_cons, render_raw_cons] at h
      injection h with _ h2
      rw [ih (fun t ht => hgood t (List.mem_cons_of_mem _ ht))
        (fun t ht => hfree t (List.mem_cons_of_mem _ ht)) h2]
    | .link a =>
      obtain ⟨b, hb⟩ := hf.2 a
      rw [List.map_cons, hb] at h ⊢
      rw [render_link_cons, render_link_cons] at h
      have ha : ']' ∉ a := (hgood _ (List.mem_cons_self _ _)).2
      have hbf : ']' ∉ b := hfree _ (List.mem_cons_self _ _) b hb
      simp only [List.cons_append, List.append_assoc, List.cons.injEq,
        List.singleton_append, true_and] at h
      obtain ⟨he, hu⟩ := brackets_inj b a _ _ hbf ha h
      rw [he, ih (fun t ht => hgood t (List.mem_cons_of_mem _ ht))
        (fun t ht => hfree t (List.mem_cons_of_mem _ ht)) hu]

theorem list_map_eq_self {α : Type} {f : α → α} : ∀ {l : List α},
    l.map f = l → ∀ x ∈ l, f x = x := by
  intro l
  induction l with
  | nil => intro _ x hx; simp at hx
  | cons y l ih =>
    intro h x hx
    rw [List.map_cons] at h
    injection h with h1 h2
    rcases List.mem_cons.mp hx with h' | h'
    · rw [h', h1]
    · exact ih h2 x h'

theorem list_map_id_of_fix {α : Type} {f : α → α} : ∀ {l : List α},
    (∀ x ∈ l, f x = x) → l.map f = l := by
  intro l
  induction l with
  | nil => intro _; rfl
  | cons y l ih =>
    intro h
    rw [List.map_cons, h y (List.mem_cons_self _ _), ih (fun x hx => h x (List.mem_cons_of_mem _ hx))]

theorem images_bracketFree (R : List Char → Option (List Char)) (ts : List Tok)
    (hgood : ∀ t ∈ ts, goodTok t)
    (h : render (ts.map (fRepl R)) = render ts) :
    ∀ t ∈ ts, ∀ b, fRepl R t = .link b → ']' ∉ b := by
  have hcount : (ts.map (fun t => tokBracketCount (fRepl R t))).sum =
      (ts.map tokBracketCount).sum := by
    have h1 := render_count (ts.map (fRepl R))
    rw [h, render_count ts, List.map_map] at h1
    exact h1.symm
  have hle : ∀ t ∈ ts, tokBracketCount t ≤ tokBracketCount (fRepl R t) := by
    intro t ht
    match t with
    | .raw c => rw [fRepl_raw]
    | .link a =>
      obtain ⟨b, hb⟩ := (fRepl_linkish R).2 a
      rw [hb]
      have ha : a.count ']' = 0 :=
        List.count_eq_zero.mpr (hgood _ ht).2
      simp only [tokBracketCount, ha]
      omega
  have hpt := sum_map_eq_pointwise ts tokBracketCount
    (fun t => tokBracketCount (fRepl R t)) hle hcount.symm
  intro t ht b hb
  have heq : tokBracketCount t = tokBracketCount (fRepl R t) := hpt t ht
  rw [hb] at heq
  match t with
  | .raw c => rw [fRepl_raw] at hb; exact absurd hb (by simp)
  | .link a =>
    have ha : a.count ']' = 0 := List.count_eq_zero.mpr (hgood _ ht).2
    simp only [tokBracketCount, ha] at heq
    exact List.count_eq_zero.mp (by omega)

/-- If any replacement operation was recorded, the applied text really is
different from the original (the source's `newContent !== original` test
cannot fail when `changed` is set). -/
theorem newContent_ne (R : List Char → Option (List Char)) (s : List Char)
    (h : computeReplacements R s ≠ []) :
    render ((tokenize s).map (fRepl R)) ≠ s := by
  intro heq
  have hrt := render_tokenize s
  have heq' : render ((tokenize s).map (fRepl R)) = render (tokenize s) := by rw [heq, hrt]
  have hfree := images_bracketFree R (tokenize s) (tokenize_good s) heq'
  have hmap := render_map_eq (fRepl_linkish R) (tokenize s) (tokenize_good s) hfree heq'
  have hfix := list_map_eq_self hmap
  apply h
  apply List.filterMap_eq_nil_iff.mpr
  intro o ho
  exact (repOf_none_iff R o).mpr (hfix (.link o.inner) (occsAux_mem_link _ 0 o ho))

/-!
## Branch analysis of `rewrite`
-/

theorem rewrite_of_ne {R : List Char → Option (List Char)} {s : List Char} (c : Nat)
    (h : computeReplacements R s ≠ []) :
    rewrite R s c =
      { newText := applyReplacements s (computeReplacements R s).reverse
        newCursorOffset := cursorAfter (computeReplacements R s).reverse c
          (applyReplacements s (computeReplacements R s).reverse).length
        changed := true } := by
  have hne : applyReplacements s (computeReplacements R s).reverse ≠ s := by
    rw [applyReplacements_render]
    exact newContent_ne R s h
  have hch : (!(computeReplacements R s).isEmpty) = true := by
    simp [List.isEmpty_iff, h]
  unfold rewrite
  rw [if_pos ⟨hch, hne⟩, hch]

theorem rewrite_of_nil {R : List Char → Option (List Char)} {s : List Char} (c : Nat)
    (h : computeReplacements R s = []) :
    rewrite R s c = { newText := s, newCursorOffset := c, changed := false } := by
  have hch : (!(computeReplacements R s).isEmpty) = false := by
    simp [List.isEmpty_iff, h]
  unfold rewrite
  rw [if_neg (fun hc => by rw [hch] at hc; exact absurd hc.1 (by simp)), hch]

/-- The text returned by `rewrite`, in all cases, is the render of the token
map. -/
theorem rewrite_newText (R : List Char → Option (List Char)) (s : List Char) (c : Nat) :
    (rewrite R s c).newText = render ((tokenize s).map (fRepl R)) := by
  by_cases h : computeReplacements R s = []
  · rw [rewrite_of_nil c h]
    have hfix : ∀ t ∈ tokenize s, fRepl R t = t := by
      intro t ht
      match t with
      | .raw c' => rw [fRepl_raw]
      | .link a =>
        obtain ⟨o, ho, hi⟩ := link_mem_occsAux (tokenize s) 0 a ht
        have : repOf R o = none := List.filterMap_eq_nil_iff.mp h o ho
        have := (repOf_none_iff R o).mp this
        rw [← hi]
        exact this
    rw [list_map_id_of_fix hfix, render_tokenize]
  · rw [rewrite_of_ne c h]
    exact applyReplacements_render R s

/-!
## Cursor arithmetic
-/

theorem clampCursor_eq (n0 : Int) (newLen : Nat) :
    clampCursor n0 newLen = (max 0 (min (newLen : Int) n0)).toNat := by
  unfold clampCursor
  split_ifs <;> omega

theorem foldl_delta (c : Nat) : ∀ (l : List Rep) (init : Int),
    l.foldl (fun acc r => if r.start < c then acc + repDelta r else acc) init =
      init + ((l.filter (fun r => r.start < c)).map repDelta).sum := by
  intro l
  induction l with
  | nil => intro init; simp
  | cons r l ih =>
    intro init
    by_cases hr : r.start < c
    · simp only [List.foldl_cons, if_pos hr, ih]
      simp [List.filter_cons, hr]
      omega
    · simp only [List.foldl_cons, if_neg hr, ih]
      simp [List.filter_cons, hr]

theorem cursorAfter_eq (rs : List Rep) (c newLen : Nat) :
    cursorAfter rs.reverse c newLen =
      (max 0 (min (newLen : Int)
        ((c : Int) + ((rs.filter (fun r => r.start < c)).map repDelta).sum))).toNat := by
  unfold cursorAfter
  rw [foldl_delta c rs.reverse 0, List.filter_reverse, List.map_reverse, List.sum_reverse,
    clampCursor_eq]
  rw [Int.zero_add]

theorem spliceSorted_length_ge (r : Rep) (rs : List Rep) (s : List Char)
    (hle : r.start ≤ s.length) :
    r.start ≤ (spliceSorted (r :: rs) s 0).length := by
  rw [spliceSorted_cons]
  simp only [List.length_append, List.length_take, Nat.sub_zero]
  omega

/-!
## Tokenization stability

Rewriting every occurrence to a well-formed full-path form and re-scanning
yields exactly the mapped token list: the scan of the new text finds the same
occurrence structure.
-/

theorem grabInner_none_of_grabTail_none {l : List Char} (h : grabTail l = none) :
    grabInner l = none := by
  unfold grabInner
  rw [h]

theorem grabInner_of_grabTail_nil {l rest : List Char} (h : grabTail l = some ([], rest)) :
    grabInner l = none := by
  unfold grabInner
  rw [h]

theorem grabInner_of_grabTail_cons {l rest inn : List Char} {ch : Char}
    (h : grabTail l = some (ch :: inn, rest)) :
    grabInner l = some (ch :: inn, rest) := by
  unfold grabInner
  rw [h]

theorem grabTail_render_rel {f : Tok → Tok} (hlk : linkish f) :
    ∀ ts : List Tok, (∀ t ∈ ts, goodTok t) → (∀ t ∈ ts, goodTok (f t)) →
    (grabTail (render ts) = none ∧ grabTail (render (ts.map f)) = none) ∨
    (∃ inn rest inn' rest', grabTail (render ts) = some (inn, rest) ∧
      grabTail (render (ts.map f)) = some (inn', rest') ∧ (inn = [] ↔ inn' = [])) := by
  intro ts
  induction ts with
  | nil => intro _ _; exact Or.inl ⟨rfl, rfl⟩
  | cons t ts ih =>
    intro hgood himg
    have hgood' := fun t ht => hgood t (List.mem_cons_of_mem _ ht)
    have himg' := fun t ht => himg t (List.mem_cons_of_mem _ ht)
    match t with
    | .raw c =>
      rw [List.map_cons, hlk.1 c, render_raw_cons, render_raw_cons]
      by_cases hc : c = ']'
      · subst hc
        match ts with
        | [] => exact Or.inl ⟨grabTail_rb_nil, grabTail_rb_nil⟩
        | .raw c2 :: ts2 =>
          rw [List.map_cons, hlk.1 c2, render_raw_cons, render_raw_cons,
            grabTail_rb_cons, grabTail_rb_cons]
          by_cases hc2 : c2 = ']'
          · rw [if_pos hc2, if_pos hc2]
            exact Or.inr ⟨[], _, [], _, rfl, rfl, Iff.rfl⟩
          · rw [if_neg hc2, if_neg hc2]
            exact Or.inl ⟨rfl, rfl⟩
        | .link Q :: ts2 =>
          obtain ⟨b, hb⟩ := hlk.2 Q
          rw [List.map_cons, hb, render_link_cons, render_link_cons]
          simp only [List.cons_append]
          rw [grabTail_rb_cons, grabTail_rb_cons,
            if_neg (show ¬('[' : Char) = ']' by decide),
            if_neg (show ¬('[' : Char) = ']' by decide)]
          exact Or.inl ⟨rfl, rfl⟩
      · rw [grabTail_cons_ne _ hc, grabTail_cons_ne _ hc]
        rcases ih hgood' himg' with ⟨h1, h2⟩ | ⟨inn, rest, inn', rest', h1, h2, h3⟩
        · rw [h1, h2]
          exact Or.inl ⟨rfl, rfl⟩
        · rw [h1, h2]
          exact Or.inr ⟨c :: inn, rest, c :: inn', rest', rfl, rfl, by simp⟩
    | .link Q =>
      obtain ⟨b, hb⟩ := hlk.2 Q
      have hQ : ']' ∉ '[' :: '[' :: Q := by
        intro hm
        rcases List.mem_cons.mp hm with h | h
        · exact absurd h.symm (by decide)
        · rcases List.mem_cons.mp h with h | h
          · exact absurd h.symm (by decide)
          · exact (hgood _ (List.mem_cons_self _ _)).2 h
      have hB : ']' ∉ '[' :: '[' :: b := by
        intro hm
        have hgb : goodTok (.link b) := hb ▸ himg _ (List.mem_cons_self _ _)
        rcases List.mem_cons.mp hm with h | h
        · exact absurd h.symm (by decide)
        · rcases List.mem_cons.mp h with h | h
          · exact absurd h.symm (by decide)
          · exact hgb.2 h
      rw [List.map_cons, hb]
      have hr1 : render (Tok.link Q :: ts) =
          ('[' :: '[' :: Q) ++ ']' :: ']' :: render ts := by
        simp [render]
      have hr2 : render (Tok.link b :: ts.map f) =
          ('[' :: '[' :: b) ++ ']' :: ']' :: render (ts.map f) := by
        simp [render]
      rw [hr1, hr2, grabTail_append hQ, grabTail_append hB]
      exact Or.inr ⟨_, _, _, _, rfl, rfl, by simp⟩

theorem grabInner_render_none {f : Tok → Tok} (hlk : linkish f) (ts : List Tok)
    (hgood : ∀ t ∈ ts, goodTok t) (himg : ∀ t ∈ ts, goodTok (f t))
    (h : grabInner (render ts) = none) : grabInner (render (ts.map f)) = none := by
  rcases grabTail_render_rel hlk ts hgood himg with ⟨-, h2⟩ | ⟨inn, rest, inn', rest', h1, h2, h3⟩
  · exact grabInner_none_of_grabTail_none h2
  · match inn, h1, h3 with
    | [], h1, h3 =>
      have : inn' = [] := h3.mp rfl
      subst this
      exact grabInner_of_grabTail_nil h2
    | ch :: inn, h1, _ =>
      rw [grabInner_of_grabTail_cons h1] at h
      exact absurd h (by simp)

theorem render_eq_nil : ∀ {ts : List Tok}, render ts = [] → ts = [] := by
  intro ts h
  match ts with
  | [] => rfl
  | .raw c :: ts' => rw [render_raw_cons] at h; exact absurd h (by simp)
  | .link a :: ts' => rw [render_link_cons] at h; exact absurd h (by simp)

/-- Re-scanning stability: if `ts` is the scan of its own render (which every
`tokenize s` is), then mapping each occurrence to a well-formed occurrence and
re-scanning finds exactly the mapped tokens. -/
theorem tokenize_render_map {f : Tok → Tok} (hlk : linkish f) :
    ∀ ts : List Tok, tokenize (render ts) = ts →
    (∀ t ∈ ts, goodTok t) → (∀ t ∈ ts, goodTok (f t)) →
    tokenize (render (ts.map f)) = ts.map f := by
  intro ts
  induction ts with
  | nil => intro _ _ _; rfl
  | cons t ts ih =>
    intro hcanon hgood himg
    have hgood' := fun t ht => hgood t (List.mem_cons_of_mem _ ht)
    have himg' := fun t ht => himg t (List.mem_cons_of_mem _ ht)
    match t with
    | .raw c =>
      by_cases hc : c = '['
      · subst hc
        match ts, hcanon, hgood', himg', ih with
        | [], _, _, _, _ =>
          rw [List.map_cons, hlk.1]
          rfl
        | .raw c2 :: ts2, hcanon, hgood', himg', ih =>
          by_cases hc2 : c2 = '['
          · subst hc2
            -- original: `[[` followed by render ts2; the match attempt failed
            rw [render_raw_cons, render_raw_cons] at hcanon
            have hnone : grabInner (render ts2) = none := by
              cases hg : grabInner (render ts2) with
              | none => rfl
              | some v =>
                obtain ⟨inn, after⟩ := v
                rw [tokenize_match hg] at hcanon
                exact absurd (List.cons.injEq .. ▸ hcanon) (by simp)
            rw [tokenize_nomatch hnone] at hcanon
            injection hcanon with h_ hcanon
            -- hcanon : tokenize ('[' :: render ts2) = raw '[' :: ts2
            have hcanon' : tokenize (render (Tok.raw '[' :: ts2)) = Tok.raw '[' :: ts2 := by
              rw [render_raw_cons]; exact hcanon
            have hmap := ih hcanon' hgood' himg'
            rw [List.map_cons, hlk.1] at hmap ⊢
            rw [List.map_cons, hlk.1]
            rw [render_raw_cons] at hmap ⊢
            rw [render_raw_cons]
            have hnone' : grabInner (render (ts2.map f)) = none := by
              have := grabInner_render_none hlk ts2
                (fun t ht => hgood' t (List.mem_cons_of_mem _ ht))
                (fun t ht => himg' t (List.mem_cons_of_mem _ ht)) hnone
              exact this
            rw [tokenize_nomatch hnone', hmap]
          · -- `[` then a non-`[` character: no match at the first `[`
            rw [render_raw_cons, render_raw_cons] at hcanon
            rw [tokenize_two _ hc2] at hcanon
            injection hcanon with h_ hcanon
            have hcanon' : tokenize (render (Tok.raw c2 :: ts2)) = Tok.raw c2 :: ts2 := by
              rw [render_raw_cons]; exact hcanon
            have hmap := ih hcanon' hgood' himg'
            rw [List.map_cons, hlk.1] at hmap ⊢
            rw [List.map_cons, hlk.1]
            rw [render_raw_cons] at hmap ⊢
            rw [render_raw_cons]
            rw [tokenize_two _ hc2, hmap]
        | .link Q :: ts2, hcanon, hgood', himg', ih =>
          -- impossible under canonicity: `[` directly followed by a link would
          -- itself have matched
          exfalso
          have hQ : goodTok (.link Q) := hgood' _ (List.mem_cons_self _ _)
          have hg : grabInner ('[' :: (Q ++ ']' :: ']' :: render ts2)) =
              some ('[' :: Q, render ts2) := by
            have h1 : '[' :: (Q ++ ']' :: ']' :: render ts2) =
                ('[' :: Q) ++ ']' :: ']' :: render ts2 := by simp
            rw [h1]
            exact grabInner_append
              (by intro hm; rcases List.mem_cons.mp hm with h | h
                  · exact absurd h.symm (by decide)
                  · exact hQ.2 h)
              (by simp)
          rw [render_raw_cons, render_link_cons] at hcanon
          simp only [List.cons_append] at hcanon
          rw [show ('[' :: '[' :: '[' :: (Q ++ [']', ']'] ++ render ts2)) =
            ('[' :: '[' :: ('[' :: (Q ++ ']' :: ']' :: render ts2))) by simp] at hcanon
          rw [tokenize_match hg] at hcanon
          exact absurd (List.cons.injEq .. ▸ hcanon).1 (by simp)
      · -- a character that is not `[`: skipped by both scans
        rw [render_raw_cons, tokenize_cons_ne _ hc] at hcanon
        injection hcanon with h_ hcanon
        have hcanon' : tokenize (render ts) = ts := hcanon
        have hmap := ih hcanon' hgood' himg'
        rw [List.map_cons, hlk.1, render_raw_cons, tokenize_cons_ne _ hc, hmap]
    | .link a =>
      have ha : goodTok (.link a) := hgood _ (List.mem_cons_self _ _)
      obtain ⟨b, hb⟩ := hlk.2 a
      have hbg : goodTok (.link b) := hb ▸ himg _ (List.mem_cons_self _ _)
      have hg : grabInner (a ++ ']' :: ']' :: render ts) = some (a, render ts) :=
        grabInner_append ha.2 ha.1
      rw [show render (Tok.link a :: ts) = '[' :: '[' :: (a ++ ']' :: ']' :: render ts)
        from rfl, tokenize_match hg] at hcanon
      injection hcanon with h_ hcanon
      have hmap := ih hcanon hgood' himg'
      have hg' : grabInner (b ++ ']' :: ']' :: render (ts.map f)) =
          some (b, render (ts.map f)) := grabInner_append hbg.2 hbg.1
      rw [List.map_cons, hb,
        show render (Tok.link b :: ts.map f) = '[' :: '[' :: (b ++ ']' :: ']' :: render (ts.map f))
        from rfl, tokenize_match hg', hmap]

/-!
## The Concealer — `buildDecorations` (src/main.ts)

`buildDecorations` reads the configuration flag (`displayAsShortName`, the
spec's `concealEnabled`), and when it is on, scans every visible range's slice
of the document with the same regex and emits, for every occurrence whose
inner text contains a `/`, one replace decoration covering
`[innerStart, prefixEnd)` — from just after `[[` through the last `/`.
-/

/-- `inner.lastIndexOf('/')`: `some i` when `i` is the index of the last `/`,
`none` when there is none (the source then gets `-1`, but only ever uses the
value after an `inner.includes('/')` check). -/
def lastSlashAux : List Char → Option Nat
  | [] => none
  | c :: cs =>
    match lastSlashAux cs with
    | some i => some (i + 1)
    | none => if c = '/' then some 0 else none

/-- `lastSlashInInner = inner.lastIndexOf('/')`, used only when a slash is
present. -/
def lastIndexOfSlash (l : List Char) : Nat := (lastSlashAux l).getD 0

theorem lastSlashAux_nil : lastSlashAux [] = none := rfl

theorem lastSlashAux_cons (c : Char) (cs : List Char) :
    lastSlashAux (c :: cs) =
      (match lastSlashAux cs with
       | some i => some (i + 1)
       | none => if c = '/' then some 0 else none) := rfl

theorem lastSlashAux_none : ∀ {l : List Char}, lastSlashAux l = none → '/' ∉ l := by
  intro l
  induction l with
  | nil => intro _ hm; simp at hm
  | cons c cs ih =>
    intro h hm
    rw [lastSlashAux_cons] at h
    cases hcs : lastSlashAux cs with
    | some i => rw [hcs] at h; exact absurd h (by simp)
    | none =>
      rw [hcs] at h
      rcases List.mem_cons.mp hm with h' | h'
      · rw [← h'] at h; rw [if_pos rfl] at h; exact absurd h (by simp)
      · exact ih hcs h'

theorem lastSlashAux_mem : ∀ {l : List Char}, '/' ∈ l → ∃ i, lastSlashAux l = some i := by
  intro l
  induction l with
  | nil => intro hm; simp at hm
  | cons c cs ih =>
    intro hm
    rw [lastSlashAux_cons]
    cases hcs : lastSlashAux cs with
    | some i => exact ⟨i + 1, rfl⟩
    | none =>
      rcases List.mem_cons.mp hm with h' | h'
      · exact ⟨0, by rw [if_pos h'.symm]⟩
      · obtain ⟨i, hi⟩ := ih h'
        rw [hi] at hcs
        exact absurd hcs (by simp)

theorem lastSlashAux_spec : ∀ {l : List Char} {i : Nat}, lastSlashAux l = some i →
    i < l.length ∧ l.get? i = some '/' ∧ ∀ j, i < j → l.get? j ≠ some '/' := by
  intro l
  induction l with
  | nil => intro i h; simp [lastSlashAux_nil] at h
  | cons c cs ih =>
    intro i h
    rw [lastSlashAux_cons] at h
    cases hcs : lastSlashAux cs with
    | some i' =>
      rw [hcs] at h
      simp only [Option.some.injEq] at h
      subst h
      obtain ⟨h1, h2, h3⟩ := ih hcs
      refine ⟨by simp; omega, by simpa using h2, ?_⟩
      intro j hj
      match j, hj with
      | j + 1, hj =>
        simp only [List.get?_cons_succ]
        exact h3 j (by omega)
    | none =>
      rw [hcs] at h
      by_cases hc : c = '/'
      · rw [if_pos hc] at h
        simp only [Option.some.injEq] at h
        subst h
        refine ⟨by simp, by simp [hc], ?_⟩
        intro j hj
        match j, hj with
        | j + 1, _ =>
          simp only [List.get?_cons_succ]
          intro hg
          exact lastSlashAux_none hcs (List.get?_mem hg)
      · rw [if_neg hc] at h
        exact absurd h (by simp)

/-- A visible slice `{ from, to }` of the document (`view.visibleRanges`);
`from`/`to` are Lean keywords, rendered `wFrom`/`wTo`. -/
structure VisibleRange where
  wFrom : Nat
  wTo : Nat
  deriving DecidableEq, Repr

/-- One replace decoration emitted by `builder.add(innerStart, prefixEnd, …)`:
the half-open byte range `[start, stop)` of the document that is visually
suppressed (`stop` = source `prefixEnd`, exclusive). -/
structure ConcealRange where
  start : Nat
  stop : Nat
  deriving DecidableEq, Repr

/-- The concealment ranges of one window `w`: scan the slice
`text.slice(w.from, w.to)`, skip occurrences without a separator, and emit
`[w.from + match.index + 2, w.from + match.index + 2 + lastSlashInInner + 1)`. -/
def windowRanges (doc : List Char) (w : VisibleRange) : List ConcealRange :=
  (occurrences ((doc.drop w.wFrom).take (w.wTo - w.wFrom))).filterMap (fun o =>
    if '/' ∈ o.inner then
      some ⟨w.wFrom + o.start + 2, w.wFrom + o.start + 2 + lastIndexOfSlash o.inner + 1⟩
    else none)

/-- `buildDecorations(view)`: `Decoration.none` (no ranges) when the flag is
off, otherwise the per-window ranges concatenated in window order (the
`RangeSetBuilder` receives them in exactly this order). -/
def buildDecorations (displayAsShortName : Bool) (doc : List Char)
    (visibleRanges : List VisibleRange) : List ConcealRange :=
  if displayAsShortName then visibleRanges.flatMap (windowRanges doc)
  else []

theorem buildDecorations_mem {doc : List Char} {ws : List VisibleRange} {r : ConcealRange}
    (h : r ∈ buildDecorations true doc ws) :
    ∃ w ∈ ws, ∃ o ∈ occurrences ((doc.drop w.wFrom).take (w.wTo - w.wFrom)),
      '/' ∈ o.inner ∧
      r.start = w.wFrom + o.start + 2 ∧
      r.stop = w.wFrom + o.start + 2 + lastIndexOfSlash o.inner + 1 := by
  unfold buildDecorations at h
  rw [if_pos rfl] at h
  obtain ⟨w, hw, hr⟩ := List.mem_flatMap.mp h
  obtain ⟨o, ho, hro⟩ := List.mem_filterMap.mp hr
  by_cases hs : '/' ∈ o.inner
  · rw [if_pos hs] at hro
    simp only [Option.some.injEq] at hro
    subst hro
    exact ⟨w, hw, o, ho, hs, rfl, rfl⟩
  · rw [if_neg hs] at hro
    exact absurd hro (by simp)

theorem occurrences_stop_le (s : List Char) : ∀ o ∈ occurrences s, o.stop ≤ s.length := by
  intro o ho
  have h := occsAux_stop_le (tokenize s) 0 o ho
  rw [render_tokenize] at h
  omega

theorem windowRanges_mem_bounds (doc : List Char) (w : VisibleRange) :
    ∀ r ∈ windowRanges doc w,
      w.wFrom + 2 ≤ r.start ∧ r.start < r.stop ∧ r.stop + 1 ≤ w.wTo := by
  intro r hr
  obtain ⟨o, ho, hro⟩ := List.mem_filterMap.mp hr
  by_cases hs : '/' ∈ o.inner
  · rw [if_pos hs] at hro
    simp only [Option.some.injEq] at hro
    subst hro
    obtain ⟨i, hi⟩ := lastSlashAux_mem hs
    obtain ⟨hlt, -, -⟩ := lastSlashAux_spec hi
    have hls : lastIndexOfSlash o.inner = i := by rw [lastIndexOfSlash, hi]; rfl
    have hstop := occsAux_stop_eq (tokenize _) 0 o ho
    have hle := occurrences_stop_le _ o ho
    have hlen : ((doc.drop w.wFrom).take (w.wTo - w.wFrom)).length ≤ w.wTo - w.wFrom := by
      rw [List.length_take]
      omega
    simp only
    refine ⟨by omega, by omega, ?_⟩
    -- r.stop + 1 ≤ wFrom + o.stop - 2 + 1 ≤ wFrom + sliceLen < wTo
    have h1 : w.wFrom + o.start + 2 + lastIndexOfSlash o.inner + 1 + 2 ≤ w.wFrom + o.stop := by
      rw [hstop, hls]
      omega
    omega
  · rw [if_neg hs] at hro
    exact absurd hro (by simp)

theorem windowRanges_pairwise (doc : List Char) (w : VisibleRange) :
    List.Pairwise (fun r1 r2 => r1.stop ≤ r2.start) (windowRanges doc w) := by
  unfold windowRanges
  apply List.pairwise_filterMap.mpr
  apply List.Pairwise.imp_of_mem ?_
    (occsAux_pairwise (tokenize ((doc.drop w.wFrom).take (w.wTo - w.wFrom))) 0)
  intro o1 o2 h1 h2 hrel r1 hr1 r2 hr2
  by_cases hs1 : '/' ∈ o1.inner
  · rw [if_pos hs1] at hr1
    by_cases hs2 : '/' ∈ o2.inner
    · rw [if_pos hs2] at hr2
      simp only [Option.mem_def, Option.some.injEq] at hr1 hr2
      subst hr1; subst hr2
      obtain ⟨i, hi⟩ := lastSlashAux_mem hs1
      obtain ⟨hlt, -, -⟩ := lastSlashAux_spec hi
      have hls : lastIndexOfSlash o1.inner = i := by rw [lastIndexOfSlash, hi]; rfl
      have hstop := occsAux_stop_eq (tokenize _) 0 o1 h1
      simp only
      -- r1.stop ≤ wFrom + o1.stop - 2 ≤ wFrom + o2.start < r2.start
      rw [hls]
      have : o1.start + 2 + i + 1 ≤ o1.stop := by rw [hstop]; omega
      omega
    · rw [if_neg hs2] at hr2
      exact absurd hr2 (by simp)
  · rw [if_neg hs1] at hr1
    exact absurd hr1 (by simp)

/-- Ordered, non-overlapping output of one build pass, given ordered disjoint
windows. -/
theorem buildDecorations_pairwise (doc : List Char) :
    ∀ ws : List VisibleRange, List.Pairwise (fun w1 w2 => w1.wTo ≤ w2.wFrom) ws →
    List.Pairwise (fun r1 r2 => r1.stop ≤ r2.start) (buildDecorations true doc ws) := by
  intro ws
  induction ws with
  | nil => intro _; simp [buildDecorations]
  | cons w ws ih =>
    intro hws
    have hws' := List.pairwise_cons.mp hws
    unfold buildDecorations at ih ⊢
    rw [if_pos rfl] at ih ⊢
    rw [List.flatMap_cons]
    apply List.pairwise_append.mpr
    refine ⟨windowRanges_pairwise doc w, ih hws'.2, ?_⟩
    intro r1 hr1 r2 hr2
    obtain ⟨-, -, h1⟩ := windowRanges_mem_bounds doc w r1 hr1
    obtain ⟨w', hw', hrw'⟩ := List.mem_flatMap.mp hr2
    obtain ⟨h2, -, -⟩ := windowRanges_mem_bounds doc w' r2 hrw'
    have hle : w.wTo ≤ w'.wFrom := hws'.1 w' hw'
    omega

/-!
## Failure semantics — the `try`/`catch` of `handleEditorChange`

The resolver (`getFirstLinkpathDest`) is the one collaborator invoked inside
the scan loop; a fallible resolver is modelled as returning
`Except Unit (Option CanonicalPath)`.  An exception raised for any occurrence
aborts the scan loop and is caught by the surrounding `try`/`catch`, which
logs and returns — before `setValue`/`setCursor` run — so the editor state
(text and cursor) is untouched for that invocation.
-/

/-- The scan loop of `handleEditorChange` over the occurrence list with a
fallible resolver: the first raised exception propagates (no further
occurrence is processed and no replacement list is produced). -/
def resolveLoopExc (R : List Char → Except Unit (Option (List Char))) :
    List Occ → Except Unit (List Rep)
  | [] => .ok []
  | o :: os =>
    if '/' ∈ o.inner then resolveLoopExc R os
    else
      match R o.inner with
      | .error e => .error e
      | .ok none => resolveLoopExc R os
      | .ok (some path) =>
        match resolveLoopExc R os with
        | .error e => .error e
        | .ok rest =>
          .ok (if wrap (stripMd path) = wrap o.inner then rest
               else ⟨o.start, o.stop, wrap (stripMd path)⟩ :: rest)

/-- Observable editor state: document text and primary cursor offset. -/
structure EditorState where
  text : List Char
  cursor : Nat
  deriving DecidableEq, Repr

/-- The application half of `handleEditorChange`: sort descending (= reverse,
see `rewrite`), splice, and — only under `changed && newContent !== original`
— `setValue` and `setCursor`. -/
def applyResolved (st : EditorState) (replacements : List Rep) : EditorState :=
  if (!replacements.isEmpty) = true ∧
      applyReplacements st.text replacements.reverse ≠ st.text then
    { text := applyReplacements st.text replacements.reverse
      cursor := cursorAfter replacements.reverse st.cursor
        (applyReplacements st.text replacements.reverse).length }
  else st

/-- One full (fallible) `handleEditorChange` invocation on the editor state:
on an exception the catch block leaves the state untouched; otherwise the
replacements are applied exactly as in `rewrite`. -/
def handleEditorChange (R : List Char → Except Unit (Option (List Char)))
    (st : EditorState) : EditorState :=
  match resolveLoopExc R (occurrences st.text) with
  | .error _ => st
  | .ok replacements => applyResolved st replacements

/-- The resolver a non-throwing run is equivalent to. -/
def exToOption (R : List Char → Except Unit (Option (List Char)))
    (a : List Char) : Option (List Char) :=
  match R a with
  | .ok v => v
  | .error _ => none

theorem resolveLoopExc_ok (R : List Char → Except Unit (Option (List Char))) :
    ∀ (occs : List Occ) (reps : List Rep), resolveLoopExc R occs = .ok reps →
    reps = occs.filterMap (repOf (exToOption R)) := by
  intro occs
  induction occs with
  | nil =>
    intro reps h
    simp only [resolveLoopExc] at h
    injection h with h
    rw [← h]
    rfl
  | cons o os ih =>
    intro reps h
    simp only [resolveLoopExc] at h
    rw [List.filterMap_cons]
    by_cases hs : '/' ∈ o.inner
    · rw [if_pos hs] at h
      rw [show repOf (exToOption R) o = none by rw [repOf_eq, if_pos hs]]
      exact ih reps h
    · rw [if_neg hs] at h
      cases hR : R o.inner with
      | error e => rw [hR] at h; exact absurd h (by simp)
      | ok v =>
        rw [hR] at h
        have hopt : exToOption R o.inner = v := by unfold exToOption; rw [hR]
        match v, hopt with
        | none, hopt =>
          rw [show repOf (exToOption R) o = none by rw [repOf_eq, if_neg hs, hopt]]
          exact ih reps h
        | some path, hopt =>
          simp only at h
          cases hrec : resolveLoopExc R os with
          | error e => rw [hrec] at h; exact absurd h (by simp)
          | ok rest =>
            rw [hrec] at h
            simp only [Except.ok.injEq] at h
            subst h
            have hrest := ih rest hrec
            have hres : repOf (exToOption R) o =
                if wrap (stripMd path) = wrap o.inner then none
                else some ⟨o.start, o.stop, wrap (stripMd path)⟩ := by
              rw [repOf_eq, if_neg hs, hopt]
            by_cases he : wrap (stripMd path) = wrap o.inner
            · rw [if_pos he, hrest, show repOf (exToOption R) o = none by
                rw [hres, if_pos he]]
            · rw [if_neg he, hrest, show repOf (exToOption R) o =
                  some ⟨o.start, o.stop, wrap (stripMd path)⟩ by
                rw [hres, if_neg he]]

theorem applyResolved_rewrite (R : List Char → Option (List Char)) (st : EditorState) :
    applyResolved st (computeReplacements R st.text) =
      { text := (rewrite R st.text st.cursor).newText
        cursor := (rewrite R st.text st.cursor).newCursorOffset } := by
  unfold applyResolved rewrite
  by_cases hcond : (!(computeReplacements R st.text).isEmpty) = true ∧
      applyReplacements st.text (computeReplacements R st.text).reverse ≠ st.text
  · rw [if_pos hcond, if_pos hcond]
  · rw [if_neg hcond, if_neg hcond]

/-- A non-throwing invocation behaves exactly like `rewrite` with the
equivalent pure resolver. -/
theorem handleEditorChange_ok {R : List Char → Except Unit (Option (List Char))}
    {st : EditorState} {reps : List Rep}
    (h : resolveLoopExc R (occurrences st.text) = .ok reps) :
    handleEditorChange R st =
      { text := (rewrite (exToOption R) st.text st.cursor).newText
        cursor := (rewrite (exToOption R) st.text st.cursor).newCursorOffset } := by
  have hreps : reps = computeReplacements (exToOption R) st.text := resolveLoopExc_ok R _ _ h
  have h1 : handleEditorChange R st = applyResolved st reps := by
    unfold handleEditorChange
    rw [h]
  rw [h1, hreps, applyResolved_rewrite]

theorem handleEditorChange_error {R : List Char → Except Unit (Option (List Char))}
    {st : EditorState} {e : Unit}
    (h : resolveLoopExc R (occurrences st.text) = .error e) :
    handleEditorChange R st = st := by
  unfold handleEditorChange
  rw [h]

/-!
## Claim theorems
-/

/-- Resolver exhibiting the failure of claim C1 as stated: two root-level
(slash-free) canonical paths that resolve to each other, as
`getFirstLinkpathDest` can produce for vault-root notes. -/
def resolverSwap (a : List Char) : Option (List Char) :=
  if a = ['A'] then some ['B'] else if a = ['B'] then some ['A'] else none

/-- Claim C1, counterexample: the claim quantifies over every resolver, but a
resolver returning slash-free canonical paths (root-level notes) makes the
second run record operations again: on `"[[A]]"` with `A ↦ B`, `B ↦ A` the
first run produces `"[[B]]"` with `changed = true`, and the second run again
reports `changed = true`. -/
theorem rewrite_idempotence_counterexample :
    (rewrite resolverSwap
      (rewrite resolverSwap ('[' :: '[' :: 'A' :: ']' :: ']' :: []) 0).newText 0).changed
      = true := by decide

/-- Claim C1, amended: for every document text and every resolver whose
returned canonical paths — after extension stripping — contain at least one
separator `/` and no `]`, running `rewrite` a second time on the `newText`
produced by the first run (with the same resolver) yields `changed = false`:
every resolved reference is then already a full path and is skipped, every
skipped reference behaves as before. -/
theorem rewrite_idempotence (R : List Char → Option (List Char))
    (hR : ∀ a p, R a = some p → ']' ∉ stripMd p ∧ '/' ∈ stripMd p)
    (s : List Char) (c c' : Nat) :
    (rewrite R (rewrite R s c).newText c').changed = false := by
  have himg : ∀ t ∈ tokenize s, goodTok (fRepl R t) := by
    intro t ht
    match t with
    | .raw ch => trivial
    | .link a =>
      have ha := tokenize_good s _ ht
      rw [fRepl_link]
      by_cases hs : '/' ∈ a
      · rw [if_pos hs]; exact ha
      · cases hr : R a with
        | none => rw [if_neg hs]; exact ha
        | some p =>
          rw [if_neg hs]
          obtain ⟨h1, h2⟩ := hR a p hr
          exact ⟨List.ne_nil_of_mem h2, h1⟩
  have hstab : tokenize ((rewrite R s c).newText) = (tokenize s).map (fRepl R) := by
    rw [rewrite_newText]
    exact tokenize_render_map (fRepl_linkish R) (tokenize s)
      (by rw [render_tokenize]) (tokenize_good s) himg
  have hnil : computeReplacements R ((rewrite R s c).newText) = [] := by
    apply List.filterMap_eq_nil_iff.mpr
    intro o ho
    have hlink : Tok.link o.inner ∈ tokenize ((rewrite R s c).newText) :=
      occsAux_mem_link _ 0 o ho
    rw [hstab] at hlink
    obtain ⟨t, ht, hft⟩ := List.mem_map.mp hlink
    apply (repOf_none_iff R o).mpr
    match t with
    | .raw ch => rw [fRepl_raw] at hft; exact absurd hft (by simp)
    | .link a =>
      rw [fRepl_link] at hft
      by_cases hs : '/' ∈ a
      · rw [if_pos hs] at hft
        have heq : a = o.inner := by injection hft
        rw [fRepl_link, if_pos (heq ▸ hs)]
      · cases hr : R a with
        | none =>
          rw [if_neg hs, hr] at hft
          have hft' : Tok.link a = Tok.link o.inner := hft
          have heq : a = o.inner := by injection hft'
          have hs' : '/' ∉ o.inner := heq ▸ hs
          have hr' : R o.inner = none := heq ▸ hr
          rw [fRepl_link, if_neg hs', hr']
        | some p =>
          rw [if_neg hs, hr] at hft
          have hft' : Tok.link (stripMd p) = Tok.link o.inner := hft
          have heq : stripMd p = o.inner := by injection hft'
          have hslash : '/' ∈ o.inner := heq ▸ (hR a p hr).2
          rw [fRepl_link, if_pos hslash]
  rw [rewrite_of_nil c' hnil]

/-- Resolver for the C1 witness: `A` resolves to the full path `x/A`. -/
def resolverFullPath (a : List Char) : Option (List Char) :=
  if a = ['A'] then some ('x' :: '/' :: 'A' :: []) else none

/-- Witness for C1 (amended) at a concrete input. -/
theorem rewrite_idempotence_witness :
    (∀ a p, resolverFullPath a = some p → ']' ∉ stripMd p ∧ '/' ∈ stripMd p) ∧
    (rewrite resolverFullPath
      (rewrite resolverFullPath ('[' :: '[' :: 'A' :: ']' :: ']' :: []) 0).newText 0).changed
      = false := by
  have hR : ∀ a p, resolverFullPath a = some p → ']' ∉ stripMd p ∧ '/' ∈ stripMd p := by
    intro a p h
    unfold resolverFullPath at h
    by_cases ha : a = ['A']
    · rw [if_pos ha] at h
      injection h with h
      rw [← h]
      decide
    · rw [if_neg ha] at h
      exact absurd h (by simp)
  exact ⟨hR, rewrite_idempotence resolverFullPath hR _ 0 0⟩

/-- Claim C2: all-or-nothing on fault — an exception raised by the resolver
for any occurrence during the scan is caught at the call boundary and the
editor text and cursor are exactly as before the call; and in general every
invocation either leaves the state unchanged or applies the coherent
`newText`/`newCursorOffset` pair of `rewrite` under the equivalent
non-throwing resolver. -/
theorem rewrite_fault_allOrNothing (R : List Char → Except Unit (Option (List Char)))
    (st : EditorState) :
    ((∃ e, resolveLoopExc R (occurrences st.text) = .error e) →
      handleEditorChange R st = st) ∧
    (handleEditorChange R st = st ∨
      handleEditorChange R st =
        { text := (rewrite (exToOption R) st.text st.cursor).newText
          cursor := (rewrite (exToOption R) st.text st.cursor).newCursorOffset }) := by
  cases hres : resolveLoopExc R (occurrences st.text) with
  | error e =>
    exact ⟨fun _ => handleEditorChange_error hres, Or.inl (handleEditorChange_error hres)⟩
  | ok reps =>
    constructor
    · rintro ⟨e, he⟩
      exact absurd he (by simp)
    · exact Or.inr (handleEditorChange_ok hres)

/-- Resolver for the C2 witness: throws on every lookup. -/
def resolverThrow (_ : List Char) : Except Unit (Option (List Char)) :=
  .error ()

/-- Editor state for the C2 witness: one short reference, cursor at the
start. -/
def editorStateC2 : EditorState :=
  { text := '[' :: '[' :: 'A' :: ']' :: ']' :: [], cursor := 0 }

/-- Witness for C2 at a concrete input: the resolver throws on the occurrence
`A`, and the state is untouched. -/
theorem rewrite_fault_allOrNothing_witness :
    (∃ e, resolveLoopExc resolverThrow (occurrences editorStateC2.text) = .error e) ∧
    handleEditorChange resolverThrow editorStateC2 = editorStateC2 :=
  ⟨⟨(), rfl⟩, (rewrite_fault_allOrNothing resolverThrow editorStateC2).1 ⟨(), rfl⟩⟩

/-- Claim C3: cursor remapping formula — the returned cursor offset is the
original offset plus the sum of `replacement.length − (end − start)` over
exactly the operations starting strictly before the cursor, clamped into
`[0, newText.length]`; operations at or after the cursor contribute nothing
(they are filtered out).  The cursor offset is an index into the document
text, hence `c ≤ s.length`. -/
theorem cursor_remapping_formula (R : List Char → Option (List Char)) (s : List Char)
    (c : Nat) (hc : c ≤ s.length) :
    ((rewrite R s c).newCursorOffset : Int) =
      max 0 (min ((rewrite R s c).newText.length : Int)
        ((c : Int) +
          (((computeReplacements R s).filter (fun r => r.start < c)).map repDelta).sum)) := by
  by_cases h : computeReplacements R s = []
  · simp only [rewrite_of_nil c h, h, List.filter_nil, List.map_nil, List.sum_nil,
      Int.add_zero]
    omega
  · simp only [rewrite_of_ne c h]
    rw [cursorAfter_eq]
    rw [Int.toNat_of_nonneg (le_max_left 0 _)]

/-- Resolver for the C3 witness (spec example A): `Project` resolves to
`areas/work/Project.md`, whose stripped form is `areas/work/Project`. -/
def resolverProject (a : List Char) : Option (List Char) :=
  if a = "Project".toList then some ("areas/work/Project.md".toList) else none

/-- Document for the C3 witness (spec example A). -/
def documentA : List Char := "See [[Project]] for details.".toList

/-- Witness for C3 at spec example A: cursor 20 (inside "details") maps to
`20 + (len "[[areas/work/Project]]" − len "[[Project]]") = 31`. -/
theorem cursor_remapping_formula_witness :
    20 ≤ documentA.length ∧
    ((rewrite resolverProject documentA 20).newCursorOffset : Int) =
      max 0 (min ((rewrite resolverProject documentA 20).newText.length : Int)
        ((20 : Int) +
          (((computeReplacements resolverProject documentA).filter
            (fun r => r.start < 20)).map repDelta).sum)) ∧
    (rewrite resolverProject documentA 20).newCursorOffset = 31 :=
  ⟨by decide, cursor_remapping_formula resolverProject documentA 20 (by decide), by decide⟩

/-- Claim C4: concealment range containment — every emitted range comes from
an occurrence of its window's slice whose inner text contains a separator;
it starts at the absolute offset just after the opening `[[`
(`w.from + match.index + 2`), its last covered position
(`stop` is exclusive) is exactly the last `/` before the terminal name (a `/`
with no later `/`), and it ends at least two positions before the occurrence's
end — never extending past the matching `]]`.  Occurrences without a
separator produce no range (every range's source occurrence has one). -/
theorem concealment_range_containment (doc : List Char) (ws : List VisibleRange)
    (r : ConcealRange) (h : r ∈ buildDecorations true doc ws) :
    ∃ w ∈ ws, ∃ o ∈ occurrences ((doc.drop w.wFrom).take (w.wTo - w.wFrom)),
      '/' ∈ o.inner ∧
      r.start = w.wFrom + o.start + 2 ∧
      r.stop = r.start + lastIndexOfSlash o.inner + 1 ∧
      o.inner.get? (lastIndexOfSlash o.inner) = some '/' ∧
      (∀ j, lastIndexOfSlash o.inner < j → o.inner.get? j ≠ some '/') ∧
      r.stop + 2 ≤ w.wFrom + o.stop := by
  obtain ⟨w, hw, o, ho, hs, hstart, hstop⟩ := buildDecorations_mem h
  obtain ⟨i, hi⟩ := lastSlashAux_mem hs
  obtain ⟨hlt, hget, hlast⟩ := lastSlashAux_spec hi
  have hls : lastIndexOfSlash o.inner = i := by rw [lastIndexOfSlash, hi]; rfl
  have hostop := occsAux_stop_eq (tokenize _) 0 o ho
  refine ⟨w, hw, o, ho, hs, hstart, by omega, hls ▸ hget, hls ▸ hlast, ?_⟩
  rw [hstop, hls, hostop]
  omega

/-- Document for the C4 witness (spec example C). -/
def documentC : List Char := "Link: [[areas/work/Project]]".toList

/-- Witness for C4 at spec example C: the single range covers
`"areas/work/"` — offsets `[8, 19)` of the document. -/
theorem concealment_range_containment_witness :
    (⟨8, 19⟩ : ConcealRange) ∈ buildDecorations true documentC [⟨0, 28⟩] ∧
    (∃ w ∈ [(⟨0, 28⟩ : VisibleRange)],
      ∃ o ∈ occurrences ((documentC.drop w.wFrom).take (w.wTo - w.wFrom)),
      '/' ∈ o.inner ∧
      (8 : Nat) = w.wFrom + o.start + 2 ∧
      (19 : Nat) = 8 + lastIndexOfSlash o.inner + 1 ∧
      o.inner.get? (lastIndexOfSlash o.inner) = some '/' ∧
      (∀ j, lastIndexOfSlash o.inner < j → o.inner.get? j ≠ some '/') ∧
      (19 : Nat) + 2 ≤ w.wFrom + o.stop) :=
  ⟨by decide, concealment_range_containment documentC [⟨0, 28⟩] ⟨8, 19⟩ (by decide)⟩

/-- Claim C5: full-path preservation — an occurrence whose inner text already
contains a separator is never altered: no replacement operation targets it,
the Rewriter's token map fixes it, and the returned text is exactly the render
of that token map. -/
theorem full_path_preservation (R : List Char → Option (List Char)) (s : List Char)
    (o : Occ) (ho : o ∈ occurrences s) (hs : '/' ∈ o.inner) :
    (∀ r ∈ computeReplacements R s, r.start ≠ o.start) ∧
    fRepl R (.link o.inner) = .link o.inner ∧
    ∀ c, (rewrite R s c).newText = render ((tokenize s).map (fRepl R)) := by
  refine ⟨?_, by rw [fRepl_link, if_pos hs], fun c => rewrite_newText R s c⟩
  intro r hr heq
  obtain ⟨o', ho', hrep⟩ := List.mem_filterMap.mp hr
  obtain ⟨hstart, -, hs', -⟩ := repOf_some R o' r hrep
  have : o' = o := occsAux_start_inj _ 0 o' ho' o ho (by omega)
  rw [this] at hs'
  exact hs' hs

/-- Resolver for the C5 witness. -/
def resolverC5 (a : List Char) : Option (List Char) :=
  if a = ['C'] then some ('d' :: '/' :: 'C' :: []) else none

/-- Document for the C5 witness: one full-path reference and one short one. -/
def documentC5 : List Char := "[[a/b]] [[C]]".toList

/-- Witness for C5: the full-path occurrence `[[a/b]]` at offset 0 receives no
operation even though `[[C]]` is rewritten. -/
theorem full_path_preservation_witness :
    (⟨0, 7, 'a' :: '/' :: 'b' :: []⟩ : Occ) ∈ occurrences documentC5 ∧
    '/' ∈ ('a' :: '/' :: 'b' :: []) ∧
    ((∀ r ∈ computeReplacements resolverC5 documentC5,
        r.start ≠ (⟨0, 7, 'a' :: '/' :: 'b' :: []⟩ : Occ).start) ∧
      fRepl resolverC5 (.link (⟨0, 7, 'a' :: '/' :: 'b' :: []⟩ : Occ).inner) =
        .link (⟨0, 7, 'a' :: '/' :: 'b' :: []⟩ : Occ).inner ∧
      ∀ c, (rewrite resolverC5 documentC5 c).newText =
        render ((tokenize documentC5).map (fRepl resolverC5))) :=
  ⟨by decide, by decide,
    full_path_preservation resolverC5 documentC5 ⟨0, 7, 'a' :: '/' :: 'b' :: []⟩
      (by decide) (by decide)⟩

/-- Claim C6: concealment emptiness on disabled flag — with
`displayAsShortName = false` (the spec's `concealEnabled = false`),
`buildDecorations` returns no ranges, for any document and any windows. -/
theorem concealment_disabled_empty (doc : List Char) (ws : List VisibleRange) :
    buildDecorations false doc ws = [] := rfl

/-- Claim C7: for ordered disjoint visible windows, the emitted concealment
ranges are pairwise non-overlapping (`r1.stop ≤ r2.start` for any earlier
`r1`), every range is non-degenerate, and starts appear in non-decreasing
order. -/
theorem concealment_ranges_ordered (doc : List Char) (ws : List VisibleRange)
    (hws : List.Pairwise (fun w1 w2 => w1.wTo ≤ w2.wFrom) ws) :
    List.Pairwise (fun r1 r2 => r1.stop ≤ r2.start) (buildDecorations true doc ws) ∧
    (∀ r ∈ buildDecorations true doc ws, r.start < r.stop) ∧
    List.Pairwise (fun r1 r2 => r1.start ≤ r2.start) (buildDecorations true doc ws) := by
  have h1 := buildDecorations_pairwise doc ws hws
  have h2 : ∀ r ∈ buildDecorations true doc ws, r.start < r.stop := by
    intro r hr
    unfold buildDecorations at hr
    rw [if_pos rfl] at hr
    obtain ⟨w, hw, hrw⟩ := List.mem_flatMap.mp hr
    exact (windowRanges_mem_bounds doc w r hrw).2.1
  refine ⟨h1, h2, ?_⟩
  apply List.Pairwise.imp_of_mem ?_ h1
  intro r1 r2 hm1 hm2 hrel
  have := h2 r1 hm1
  omega

/-- Witness for C7 at spec example C with a single window. -/
theorem concealment_ranges_ordered_witness :
    List.Pairwise (fun w1 w2 => w1.wTo ≤ w2.wFrom) [(⟨0, 28⟩ : VisibleRange)] ∧
    (List.Pairwise (fun r1 r2 => r1.stop ≤ r2.start)
        (buildDecorations true ("Link: [[areas/work/Project]]".toList) [⟨0, 28⟩]) ∧
      (∀ r ∈ buildDecorations true ("Link: [[areas/work/Project]]".toList) [⟨0, 28⟩],
        r.start < r.stop) ∧
      List.Pairwise (fun r1 r2 => r1.start ≤ r2.start)
        (buildDecorations true ("Link: [[areas/work/Project]]".toList) [⟨0, 28⟩])) :=
  ⟨by decide, concealment_ranges_ordered ("Link: [[areas/work/Project]]".toList) [⟨0, 28⟩]
    (by decide)⟩

/-- Claim C8: unresolvable preservation — an occurrence for which the resolver
returns none receives no replacement operation (its literal text is carried
through unchanged: the token map fixes it and the returned text is the render
of the token map), and its failure does not prevent any other occurrence from
being processed: every operation any occurrence produces is in the final
list. -/
theorem unresolvable_preservation (R : List Char → Option (List Char)) (s : List Char)
    (o : Occ) (ho : o ∈ occurrences s) (hnone : R o.inner = none) :
    (∀ r ∈ computeReplacements R s, r.start ≠ o.start) ∧
    fRepl R (.link o.inner) = .link o.inner ∧
    (∀ c, (rewrite R s c).newText = render ((tokenize s).map (fRepl R))) ∧
    (∀ o' ∈ occurrences s, ∀ rep, repOf R o' = some rep →
      rep ∈ computeReplacements R s) := by
  have hfix : fRepl R (.link o.inner) = .link o.inner := by
    rw [fRepl_link]
    by_cases hs : '/' ∈ o.inner
    · rw [if_pos hs]
    · rw [if_neg hs, hnone]
  refine ⟨?_, hfix, fun c => rewrite_newText R s c, ?_⟩
  · intro r hr heq
    obtain ⟨o', ho', hrep⟩ := List.mem_filterMap.mp hr
    have hoo : o' = o := by
      obtain ⟨hstart, -, -⟩ := repOf_some R o' r hrep
      exact occsAux_start_inj _ 0 o' ho' o ho (by omega)
    rw [hoo, (repOf_none_iff R o).mpr hfix] at hrep
    exact absurd hrep (by simp)
  · intro o' ho' rep hrep
    exact List.mem_filterMap.mpr ⟨o', ho', hrep⟩

/-- Resolver for the C8 witness: resolves `C`, fails on everything else
(in particular on `Gone`). -/
def resolverC8 (a : List Char) : Option (List Char) :=
  if a = ['C'] then some ('d' :: '/' :: 'C' :: []) else none

/-- Document for the C8 witness. -/
def documentC8 : List Char := "x[[Gone]] [[C]]".toList

/-- Witness for C8: the unresolvable occurrence `[[Gone]]` at offset 1 is
untouched while `[[C]]` is still rewritten. -/
theorem unresolvable_preservation_witness :
    (⟨1, 9, 'G' :: 'o' :: 'n' :: 'e' :: []⟩ : Occ) ∈ occurrences documentC8 ∧
    resolverC8 ('G' :: 'o' :: 'n' :: 'e' :: []) = none ∧
    ((∀ r ∈ computeReplacements resolverC8 documentC8, r.start ≠ 1) ∧
      fRepl resolverC8 (.link ('G' :: 'o' :: 'n' :: 'e' :: [])) =
        .link ('G' :: 'o' :: 'n' :: 'e' :: []) ∧
      (∀ c, (rewrite resolverC8 documentC8 c).newText =
        render ((tokenize documentC8).map (fRepl resolverC8))) ∧
      (∀ o' ∈ occurrences documentC8, ∀ rep, repOf resolverC8 o' = some rep →
        rep ∈ computeReplacements resolverC8 documentC8)) :=
  ⟨by decide, by decide,
    unresolvable_preservation resolverC8 documentC8 ⟨1, 9, 'G' :: 'o' :: 'n' :: 'e' :: []⟩
      (by decide) (by decide)⟩

/-- Claim C9: cursor invariance for unaffected regions — when every recorded
operation starts at or after the cursor, the returned cursor offset equals the
original cursor offset. -/
theorem cursor_invariance_unaffected (R : List Char → Option (List Char)) (s : List Char)
    (c : Nat) (h : ∀ r ∈ computeReplacements R s, c ≤ r.start) :
    (rewrite R s c).newCursorOffset = c := by
  by_cases hnil : computeReplacements R s = []
  · rw [rewrite_of_nil c hnil]
  · simp only [rewrite_of_ne c hnil]
    rw [cursorAfter_eq]
    have hfil : (computeReplacements R s).filter (fun r => r.start < c) = [] := by
      apply List.filter_eq_nil_iff.mpr
      intro r hr
      simpa using Nat.not_lt.mpr (h r hr)
    rw [hfil]
    simp only [List.map_nil, List.sum_nil, Int.add_zero]
    obtain ⟨r0, rest, hreps⟩ := List.exists_cons_of_ne_nil hnil
    have hb := repsBound_computeReplacements R s
    have hmem := hb.mem r0 (by rw [hreps]; exact List.mem_cons_self _ _)
    have hc0 : c ≤ r0.start := h r0 (by rw [hreps]; exact List.mem_cons_self _ _)
    have hlen : c ≤ (applyReplacements s (computeReplacements R s).reverse).length := by
      rw [applyReplacements_eq_spliceSorted _ _ hb, hreps]
      have := spliceSorted_length_ge r0 rest s (by omega)
      omega
    omega

/-- Resolver for the C9 witness. -/
def resolverC9 (a : List Char) : Option (List Char) :=
  if a = ['A'] then some ('x' :: '/' :: 'A' :: []) else none

/-- Document for the C9 witness: the only occurrence starts at offset 3. -/
def documentC9 : List Char := "ab [[A]]".toList

/-- Witness for C9: with the cursor at offset 1, before the only operation
(start 3), the cursor is unchanged. -/
theorem cursor_invariance_unaffected_witness :
    (∀ r ∈ computeReplacements resolverC9 documentC9, 1 ≤ r.start) ∧
    (rewrite resolverC9 documentC9 1).newCursorOffset = 1 :=
  ⟨by decide, cursor_invariance_unaffected resolverC9 documentC9 1 (by decide)⟩

/-- Claim C10: the scan pattern forbids every `]` in the inner text — the
inner text of every occurrence either engine recognizes contains no `]` (so a
bracketed span whose interior contains a `]` is never an occurrence), every
replacement operation of the Rewriter targets such a `]`-free occurrence, and
every concealment range of the Concealer originates from one. -/
theorem scan_forbids_inner_rbracket (s : List Char) :
    (∀ o ∈ occurrences s, ']' ∉ o.inner) ∧
    (∀ inn a b, ']' ∈ inn → (⟨a, b, inn⟩ : Occ) ∉ occurrences s) ∧
    (∀ R : List Char → Option (List Char), ∀ r ∈ computeReplacements R s,
      ∃ o ∈ occurrences s, r.start = o.start ∧ r.stop = o.stop ∧ ']' ∉ o.inner) ∧
    (∀ ws : List VisibleRange, ∀ r ∈ buildDecorations true s ws, ∃ w ∈ ws,
      ∃ o ∈ occurrences ((s.drop w.wFrom).take (w.wTo - w.wFrom)),
        ']' ∉ o.inner ∧ r.start = w.wFrom + o.start + 2) := by
  have h1 : ∀ o ∈ occurrences s, ']' ∉ o.inner :=
    fun o ho => (occurrences_inner_good s o ho).1
  refine ⟨h1, ?_, ?_, ?_⟩
  · intro inn a b hmem hocc
    exact h1 _ hocc hmem
  · intro R r hr
    obtain ⟨o, ho, hrep⟩ := List.mem_filterMap.mp hr
    obtain ⟨hstart, hstop, -⟩ := repOf_some R o r hrep
    exact ⟨o, ho, hstart, hstop, h1 o ho⟩
  · intro ws r hr
    obtain ⟨w, hw, o, ho, -, hstart, -⟩ := buildDecorations_mem hr
    refine ⟨w, hw, o, ho, ?_, hstart⟩
    exact (occurrences_inner_good _ o ho).1

/-- Witness for C10: in `"[[a]b]] [[ok]]"` the span `[[a]b]]` (interior
`a]b`) is not an occurrence, while `[[ok]]` is. -/
theorem scan_forbids_inner_rbracket_witness :
    ']' ∈ ('a' :: ']' :: 'b' :: []) ∧
    (⟨0, 7, 'a' :: ']' :: 'b' :: []⟩ : Occ) ∉ occurrences ("[[a]b]] [[ok]]".toList) :=
  ⟨by decide,
    (scan_forbids_inner_rbracket ("[[a]b]] [[ok]]".toList)).2.1
      ('a' :: ']' :: 'b' :: []) 0 7 (by decide)⟩

end GhostPath
